import Mathlib

/-!
Verification of the prfl profiler core (uxebu/prfl).

The definitions below are a shallow embedding of `src/prfl.js`.  The repository
carries several revisions of this file; where revisions differ we follow the
most complete one (the revision with the `try/finally` bracket, the construct
branch, the name-type check and the null guard), which is the revision the
repository's test suite exercises.  Differences between revisions are noted at
the relevant definitions.

Conventions of the embedding:
* JS numbers driving the timing are modelled as `Nat`: the injected time source
  is a deterministic monotone counter that advances by the declared duration of
  each piece of uninstrumented work, so every duration the profiler computes is
  a non-negative integer and `Nat` subtraction never truncates (proved where it
  matters).
* `this.samples` is a plain JS object used as a string-keyed map; the code
  guards every access with `hasOwnProperty`, so it is faithfully modelled as an
  association list over own keys in insertion order (JS preserves insertion
  order of string keys, and an existing key keeps its position).
* `this.totalTimesStack` is a JS array used as a stack via `push`/`pop`, with a
  `lastIndex` field that always mirrors `length - 1`.  We model it as a `List`
  whose head is the top of the stack (the end of the JS array); the statement
  `totalTimesStack[lastIndex] += time`, executed right after the `lastIndex`
  decrement, adds `time` to the new top.
-/

namespace Prfl

/-- One named sample set: `{totalTimes: [], selfTimes: []}` in `addSample`. -/
structure FunctionSamples where
  totalTimes : List Nat
  selfTimes : List Nat
deriving Repr, DecidableEq

/-- The mutable profiler state: `this.samples`, `this.totalTimesStack`, and the
reading of the injected deterministic time source (`getTime`). -/
structure ProfilerState where
  samples : List (String × FunctionSamples)
  stack : List Nat
  clock : Nat
deriving Repr, DecidableEq

/-- The `Profiler` constructor: `this.samples = {}; this.totalTimesStack = [0];
this.totalTimesStack.lastIndex = 0;`.  The time source starts at `t0`. -/
def initProfiler (t0 : Nat) : ProfilerState :=
  { samples := [], stack := [0], clock := t0 }

/-- Own-property lookup on the samples map (`samples.hasOwnProperty(name)`
followed by `samples[name]`). -/
def lookupSamples (samples : List (String × FunctionSamples)) (name : String) :
    Option FunctionSamples :=
  (samples.find? (fun p => p.1 == name)).map Prod.snd

/-- The body of `addSample`: take the existing own entry for `name` or create
`{totalTimes: [], selfTimes: []}`, then push `totalTime` and `selfTime`.
A fresh key is appended at the end (JS insertion order); an existing key keeps
its position. -/
def updateSamples : List (String × FunctionSamples) → String → Nat → Nat →
    List (String × FunctionSamples)
  | [], name, t, s => [(name, ⟨[t], [s]⟩)]
  | (n, fs) :: rest, name, t, s =>
      if n == name then
        (n, ⟨fs.totalTimes ++ [t], fs.selfTimes ++ [s]⟩) :: rest
      else
        (n, fs) :: updateSamples rest name t s

/-- `Profiler.prototype.addSample(name, totalTime, selfTime)`. -/
def addSample (st : ProfilerState) (name : String) (total self : Nat) :
    ProfilerState :=
  { st with samples := updateSamples st.samples name total self }

/-- `Profiler.prototype.sum(iterable)`: the while loop accumulates the entries
left to right. -/
def sumJS (iterable : List Nat) : Nat :=
  iterable.foldl (fun acc x => acc + x) 0

/-- One entry of the value produced by `getReport`. -/
structure ReportEntry where
  calls : Nat
  selfTime : Nat
  totalTime : Nat
deriving Repr, DecidableEq

/-- `Profiler.prototype.getReport()`: for every own key of the samples map,
`{calls: totalTimes.length, selfTime: sum(selfTimes), totalTime: sum(totalTimes)}`. -/
def getReport (st : ProfilerState) : List (String × ReportEntry) :=
  st.samples.map (fun p =>
    (p.1, ⟨p.2.totalTimes.length, sumJS p.2.selfTimes, sumJS p.2.totalTimes⟩))

/-- Lookup of one name in the report. -/
def reportOf (st : ProfilerState) (name : String) : Option ReportEntry :=
  ((getReport st).find? (fun p => p.1 == name)).map Prod.snd

/-- `report[name].totalTime`, defaulting to 0 for a name with no samples. -/
def totalTimeOf (st : ProfilerState) (name : String) : Nat :=
  ((reportOf st name).map ReportEntry.totalTime).getD 0

/-- `report[name].selfTime`, defaulting to 0 for a name with no samples. -/
def selfTimeOf (st : ProfilerState) (name : String) : Nat :=
  ((reportOf st name).map ReportEntry.selfTime).getD 0

/-!
Dynamic behaviour of wrapped callables.

A run of instrumented code is described by a tree of wrapped invocations.  A
`CallTree` node carries the name under which the callable was wrapped, the
ordered body of its underlying callable — uninstrumented work of a given
duration interleaved with invocations of further wrapped callables — and,
optionally, an error the underlying callable itself raises after its body.
An error raised inside the body aborts the remaining body items of every
enclosing callable and propagates outward, exactly as a JS exception does.
-/

mutual
inductive Item where
  | work : Nat → Item
  | call : CallTree → Item
deriving Repr
inductive CallTree where
  | node : String → List Item → Option String → CallTree
deriving Repr
end

/-- Name of the wrapped callable at the root of a tree. -/
def CallTree.name : CallTree → String
  | .node n _ _ => n

mutual
/-- Execute the body of a wrapped callable item by item.  `work d` advances the
injected time source by `d`; a nested call runs the wrapper of the callee.  A
raised error aborts the remaining items and propagates. -/
def runItems : ProfilerState → List Item → ProfilerState × Option String
  | st, [] => (st, none)
  | st, Item.work d :: rest => runItems { st with clock := st.clock + d } rest
  | st, Item.call t :: rest =>
      match runCall st t with
      | (st1, some e) => (st1, some e)
      | (st1, none) => runItems st1 rest

/-- The wrapper returned by `wrapFunction(name, func)`, executed on one
invocation.  Faithful to the source:
`totalTimesStack.push(0); totalTimesStack.lastIndex += 1;` then
`start = getTime()`, then `func.apply(this, arguments)` inside `try`, and in
the `finally` block `time = getTime() - start;`
`profiler.addSample(name, time, time - totalTimesStack.pop());`
`lastIndex = totalTimesStack.lastIndex -= 1; totalTimesStack[lastIndex] += time;`
after which the error, if any, is re-raised to the caller unchanged.
The stack is never empty when the `pop` runs (the entry `push` guarantees it);
the `[]` branches below are unreachable and return the state unchanged. -/
def runCall : ProfilerState → CallTree → ProfilerState × Option String
  | st, CallTree.node name body raises =>
      let st1 : ProfilerState := { st with stack := 0 :: st.stack }
      let start := st1.clock
      match runItems st1 body with
      | (st2, errBody) =>
        let err := match errBody with
          | some e => some e
          | none => raises
        let time := st2.clock - start
        match st2.stack with
        | childTime :: restStack =>
            let st3 := addSample { st2 with stack := restStack } name time (time - childTime)
            match st3.stack with
            | top :: rest2 => ({ st3 with stack := (top + time) :: rest2 }, err)
            | [] => (st3, err)
        | [] => (st2, err)
end

/-- A sequence of top-level invocations of wrapped callables; the (outermost,
uninstrumented) caller catches any error and continues with the next call. -/
def runSession : ProfilerState → List CallTree → ProfilerState
  | st, [] => st
  | st, t :: ts => runSession (runCall st t).1 ts

/-!
Specification-side views of an execution: the error it propagates, the
wall-clock it consumes, the child time the wrapper accumulates for its caller,
and the samples it records, all computed directly from the call tree.  The
master lemmas `runItems_spec`/`runCall_spec` show the interpreter above agrees
with these views.
-/

mutual
/-- The error a body propagates: the first error raised by an executed item. -/
def itemsError : List Item → Option String
  | [] => none
  | Item.work _ :: rest => itemsError rest
  | Item.call t :: rest =>
      match treeError t with
      | some e => some e
      | none => itemsError rest
/-- The error one invocation propagates: an error from its body, or else the
error the callable itself raises. -/
def treeError : CallTree → Option String
  | CallTree.node _ body raises =>
      match itemsError body with
      | some e => some e
      | none => raises
end

/-- Whether an invocation terminates by raising. -/
def treeThrows (t : CallTree) : Bool :=
  (treeError t).isSome

mutual
/-- Wall-clock consumed by the executed part of a body (items after a raising
call do not run). -/
def itemsDuration : List Item → Nat
  | [] => 0
  | Item.work d :: rest => d + itemsDuration rest
  | Item.call t :: rest =>
      treeDuration t + (if treeThrows t then 0 else itemsDuration rest)
/-- Wall-clock consumed by one invocation: the executed part of its body. -/
def treeDuration : CallTree → Nat
  | CallTree.node _ body _ => itemsDuration body
end

/-- Total time the executed calls of a body add to the enclosing accumulator:
every started call completes its bracket (the `finally` block), so the raising
call contributes as well. -/
def itemsChildSum : List Item → Nat
  | [] => 0
  | Item.work _ :: rest => itemsChildSum rest
  | Item.call t :: rest =>
      treeDuration t + (if treeThrows t then 0 else itemsChildSum rest)

/-- One recorded sample: name, total time, self time. -/
abbrev Sample := String × Nat × Nat

mutual
/-- Samples recorded while executing a body, in recording order. -/
def itemsSamples : List Item → List Sample
  | [] => []
  | Item.work _ :: rest => itemsSamples rest
  | Item.call t :: rest =>
      treeSamples t ++ (if treeThrows t then [] else itemsSamples rest)
/-- Samples recorded by one invocation: its body's samples followed by its own
sample `(name, total, total - childSum)` — inner callables finish (and record)
before the outer one. -/
def treeSamples : CallTree → List Sample
  | CallTree.node name body _ =>
      itemsSamples body ++
        [(name, itemsDuration body, itemsDuration body - itemsChildSum body)]
end

/-- Replay a list of samples into a samples map. -/
def recordAll (samples : List (String × FunctionSamples)) (l : List Sample) :
    List (String × FunctionSamples) :=
  l.foldl (fun acc s => updateSamples acc s.1 s.2.1 s.2.2) samples

theorem recordAll_append (samples : List (String × FunctionSamples))
    (l1 l2 : List Sample) :
    recordAll samples (l1 ++ l2) = recordAll (recordAll samples l1) l2 := by
  simp [recordAll, List.foldl_append]

mutual
/-- Master lemma, body side: executing a body advances the clock by the
executed duration, adds the completed calls' total times to the top stack
entry, records exactly the spec-side samples, and propagates the spec-side
error. -/
theorem runItems_spec : ∀ (l : List Item) (st : ProfilerState) (c : Nat)
    (rest : List Nat), st.stack = c :: rest →
    runItems st l =
      ({ samples := recordAll st.samples (itemsSamples l),
         stack := (c + itemsChildSum l) :: rest,
         clock := st.clock + itemsDuration l }, itemsError l)
  | [], st, c, rest, h => by
      simp [runItems, itemsSamples, itemsChildSum, itemsDuration, itemsError,
        recordAll]
      cases st with
      | mk s k ck => simp at h; simp [h]
  | Item.work d :: l, st, c, rest, h => by
      rw [runItems, runItems_spec l { st with clock := st.clock + d } c rest (by simpa using h)]
      simp [itemsSamples, itemsChildSum, itemsDuration, itemsError, Nat.add_assoc]
  | Item.call t :: l, st, c, rest, h => by
      rw [runItems]
      rw [runCall_spec t st c rest h]
      cases het : treeError t with
      | some e =>
          simp [itemsSamples, itemsChildSum, itemsDuration, itemsError,
            treeThrows, het, recordAll_append]
      | none =>
          dsimp only
          rw [runItems_spec l _ (c + treeDuration t) rest (by simp)]
          simp [itemsSamples, itemsChildSum, itemsDuration, itemsError,
            treeThrows, het, recordAll_append, Nat.add_assoc]
/-- Master lemma, call side: one invocation of the wrapper records its body's
samples then its own `(name, total, total - childSum)` sample, adds its total
time to its caller's accumulator, advances the clock by its total time, and
returns the propagated error — whether or not anything raised. -/
theorem runCall_spec : ∀ (t : CallTree) (st : ProfilerState) (c : Nat)
    (rest : List Nat), st.stack = c :: rest →
    runCall st t =
      ({ samples := recordAll st.samples (treeSamples t),
         stack := (c + treeDuration t) :: rest,
         clock := st.clock + treeDuration t }, treeError t)
  | CallTree.node name body raises, st, c, rest, h => by
      rw [runCall]
      rw [runItems_spec body { st with stack := 0 :: st.stack } 0 (c :: rest) (by simp [h])]
      simp only [h]
      simp [addSample, treeSamples, treeDuration, treeError, recordAll_append,
        recordAll, Nat.add_sub_cancel_left, Nat.add_comm]
end

/-! Lemmas about the samples map. -/

theorem lookup_updateSamples_self (samples : List (String × FunctionSamples))
    (nm : String) (t s : Nat) :
    lookupSamples (updateSamples samples nm t s) nm =
      some ⟨((lookupSamples samples nm).getD ⟨[], []⟩).totalTimes ++ [t],
            ((lookupSamples samples nm).getD ⟨[], []⟩).selfTimes ++ [s]⟩ := by
  induction samples with
  | nil => simp [lookupSamples, updateSamples, List.find?]
  | cons hd tl ih =>
      cases hd with
      | mk n fs =>
          by_cases h : n = nm
          · have hb : (n == nm) = true := by simp [h]
            simp [lookupSamples, updateSamples, List.find?, hb, h]
          · have hb : (n == nm) = false := by simp [h]
            simpa [lookupSamples, updateSamples, List.find?, hb] using ih

theorem lookup_updateSamples_ne (samples : List (String × FunctionSamples))
    (nm m : String) (t s : Nat) (hne : m ≠ nm) :
    lookupSamples (updateSamples samples nm t s) m = lookupSamples samples m := by
  induction samples with
  | nil =>
      have hb : (nm == m) = false := by simp [Ne.symm hne]
      simp [lookupSamples, updateSamples, List.find?, hb]
  | cons hd tl ih =>
      cases hd with
      | mk n fs =>
          by_cases h : n = nm
          · have hb : (n == nm) = true := by simp [h]
            have hb2 : (n == m) = false := by simp [h, Ne.symm hne]
            simp [lookupSamples, updateSamples, List.find?, hb, hb2]
          · have hb : (n == nm) = false := by simp [h]
            by_cases h2 : n = m
            · have hb2 : (n == m) = true := by simp [h2]
              simp [lookupSamples, updateSamples, List.find?, hb, hb2]
            · have hb2 : (n == m) = false := by simp [h2]
              simpa [lookupSamples, updateSamples, List.find?, hb, hb2] using ih

/-- The `(totalTime, selfTime)` pairs recorded under one name, in order. -/
def samplesFor (n : String) (l : List Sample) : List (Nat × Nat) :=
  (l.filter (fun s => s.1 == n)).map Prod.snd

theorem lookup_recordAll (l : List Sample)
    (samples : List (String × FunctionSamples)) (n : String) :
    lookupSamples (recordAll samples l) n =
      if (lookupSamples samples n).isNone ∧ samplesFor n l = [] then none
      else some ⟨((lookupSamples samples n).getD ⟨[], []⟩).totalTimes
                    ++ (samplesFor n l).map Prod.fst,
                 ((lookupSamples samples n).getD ⟨[], []⟩).selfTimes
                    ++ (samplesFor n l).map Prod.snd⟩ := by
  induction l generalizing samples with
  | nil =>
      cases h : lookupSamples samples n with
      | none => simp [recordAll, samplesFor, h]
      | some fs => simp [recordAll, samplesFor, h]
  | cons hd tl ih =>
      have step : recordAll samples (hd :: tl)
          = recordAll (updateSamples samples hd.1 hd.2.1 hd.2.2) tl := by
        simp [recordAll]
      rw [step, ih]
      by_cases h : hd.1 = n
      · have hb : (hd.1 == n) = true := by simp [h]
        rw [show (updateSamples samples hd.1 hd.2.1 hd.2.2)
              = updateSamples samples n hd.2.1 hd.2.2 by rw [h]]
        rw [lookup_updateSamples_self]
        cases hl : lookupSamples samples n with
        | none => simp [samplesFor, hb, hl]
        | some fs => simp [samplesFor, hb, hl]
      · have hb : (hd.1 == n) = false := by simp [h]
        rw [lookup_updateSamples_ne samples hd.1 n hd.2.1 hd.2.2 (fun he => h he.symm)]
        have hfil : samplesFor n (hd :: tl) = samplesFor n tl := by
          simp [samplesFor, List.filter_cons, hb]
        rw [hfil]

theorem sumJS_eq_sum (l : List Nat) : sumJS l = l.sum := by
  have aux : ∀ (l : List Nat) (a : Nat), l.foldl (fun acc x => acc + x) a = a + l.sum := by
    intro l
    induction l with
    | nil => simp
    | cons x xs ih => intro a; simp [ih, Nat.add_assoc]
  simpa [sumJS] using aux l 0

theorem reportOf_eq_lookup (st : ProfilerState) (n : String) :
    reportOf st n = (lookupSamples st.samples n).map
      (fun fs => ⟨fs.totalTimes.length, sumJS fs.selfTimes, sumJS fs.totalTimes⟩) := by
  unfold reportOf getReport lookupSamples
  generalize st.samples = l
  induction l with
  | nil => simp [List.find?]
  | cons hd tl ih =>
      cases hd with
      | mk nm fs =>
          by_cases h : nm = n
          · have hb : (nm == n) = true := by simp [h]
            simp [List.find?, hb]
          · have hb : (nm == n) = false := by simp [h]
            simpa [List.find?, hb] using ih

/-- Total times recorded under one name, in order. -/
def totalsFor (n : String) (l : List Sample) : List Nat :=
  (samplesFor n l).map Prod.fst

/-- Self times recorded under one name, in order. -/
def selfsFor (n : String) (l : List Sample) : List Nat :=
  (samplesFor n l).map Prod.snd

theorem totalTimeOf_of_samples (L : List Sample) (stack : List Nat) (clock : Nat)
    (n : String) :
    totalTimeOf ⟨recordAll [] L, stack, clock⟩ n = (totalsFor n L).sum := by
  unfold totalTimeOf
  rw [reportOf_eq_lookup]
  rw [show (ProfilerState.mk (recordAll [] L) stack clock).samples = recordAll [] L from rfl]
  rw [lookup_recordAll]
  by_cases h : samplesFor n L = []
  · simp [lookupSamples, List.find?, h, totalsFor]
  · simp [lookupSamples, List.find?, h, totalsFor, sumJS_eq_sum]

theorem selfTimeOf_of_samples (L : List Sample) (stack : List Nat) (clock : Nat)
    (n : String) :
    selfTimeOf ⟨recordAll [] L, stack, clock⟩ n = (selfsFor n L).sum := by
  unfold selfTimeOf
  rw [reportOf_eq_lookup]
  rw [show (ProfilerState.mk (recordAll [] L) stack clock).samples = recordAll [] L from rfl]
  rw [lookup_recordAll]
  by_cases h : samplesFor n L = []
  · simp [lookupSamples, List.find?, h, selfsFor]
  · simp [lookupSamples, List.find?, h, selfsFor, sumJS_eq_sum]

/-- All samples recorded over a session, in order. -/
def sessionSamples : List CallTree → List Sample
  | [] => []
  | t :: ts => treeSamples t ++ sessionSamples ts

/-- Wall-clock consumed by a session. -/
def sessionDuration : List CallTree → Nat
  | [] => 0
  | t :: ts => treeDuration t + sessionDuration ts

theorem runSession_spec : ∀ (ts : List CallTree) (st : ProfilerState) (c : Nat)
    (rest : List Nat), st.stack = c :: rest →
    runSession st ts =
      { samples := recordAll st.samples (sessionSamples ts),
        stack := (c + sessionDuration ts) :: rest,
        clock := st.clock + sessionDuration ts } := by
  intro ts
  induction ts with
  | nil =>
      intro st c rest h
      cases st with
      | mk s k ck =>
          simp only at h
          simp [runSession, sessionSamples, sessionDuration, recordAll, h]
  | cons t ts ih =>
      intro st c rest h
      rw [runSession, runCall_spec t st c rest h]
      rw [ih _ (c + treeDuration t) rest (by simp)]
      simp [sessionSamples, sessionDuration, recordAll_append, Nat.add_assoc]

theorem samplesFor_append (n : String) (l1 l2 : List Sample) :
    samplesFor n (l1 ++ l2) = samplesFor n l1 ++ samplesFor n l2 := by
  simp [samplesFor]

theorem samplesFor_nil_of (n : String) (l : List Sample)
    (h : ∀ s ∈ l, ¬s.1 = n) : samplesFor n l = [] := by
  induction l with
  | nil => simp [samplesFor]
  | cons hd tl ih =>
      have hb : (hd.1 == n) = false := by simp [h hd (by simp)]
      have := ih (fun s hs => h s (by simp [hs]))
      simpa [samplesFor, List.filter_cons, hb] using this

theorem samplesFor_single_self (n : String) (t s : Nat) :
    samplesFor n [(n, t, s)] = [(t, s)] := by
  simp [samplesFor]

theorem samplesFor_single_ne (n m : String) (t s : Nat) (h : ¬m = n) :
    samplesFor n [(m, t, s)] = [] := by
  simp [samplesFor, List.filter_cons, h]

/-- C1: under the injected deterministic time source, for an outer wrapped
call that invokes one wrapped callable `inner` and does no other instrumented
work, `report[outer].totalTime = report[outer].selfTime + report[inner].totalTime`;
and for an outer call invoking the three sibling wrapped calls `foo`, `bar`,
`baz` plus uninstrumented work,
`report[outer].totalTime = report[foo].totalTime + report[bar].totalTime +
report[baz].totalTime + report[outer].selfTime`.  The callees may nest further
wrapped calls and may raise; the name hypotheses say only that the five names
are pairwise distinct roles and do not reappear inside the callees' bodies. -/
theorem nested_and_sibling_time_attribution
    (outer inner foo bar baz : String)
    (w1 w2 a b c e t0 : Nat)
    (innerBody fooBody barBody bazBody : List Item)
    (innerRaises fooRaises barRaises bazRaises : Option String)
    (hoi : ¬inner = outer)
    (hIn : ∀ s ∈ itemsSamples innerBody, ¬s.1 = outer ∧ ¬s.1 = inner)
    (hfo : ¬foo = outer) (hbo : ¬bar = outer) (hzo : ¬baz = outer)
    (hfb : ¬foo = bar) (hfz : ¬foo = baz) (hbz : ¬bar = baz)
    (hof : ¬outer = foo) (hob : ¬outer = bar) (hoz : ¬outer = baz)
    (hbf : ¬bar = foo) (hzf : ¬baz = foo) (hzb : ¬baz = bar)
    (hBf : ∀ s ∈ itemsSamples fooBody,
      ¬s.1 = outer ∧ ¬s.1 = foo ∧ ¬s.1 = bar ∧ ¬s.1 = baz)
    (hBb : ∀ s ∈ itemsSamples barBody,
      ¬s.1 = outer ∧ ¬s.1 = foo ∧ ¬s.1 = bar ∧ ¬s.1 = baz)
    (hBz : ∀ s ∈ itemsSamples bazBody,
      ¬s.1 = outer ∧ ¬s.1 = foo ∧ ¬s.1 = bar ∧ ¬s.1 = baz) :
    (totalTimeOf (runCall (initProfiler t0) (CallTree.node outer
        [Item.work w1, Item.call (CallTree.node inner innerBody innerRaises),
         Item.work w2] none)).1 outer
      = selfTimeOf (runCall (initProfiler t0) (CallTree.node outer
          [Item.work w1, Item.call (CallTree.node inner innerBody innerRaises),
           Item.work w2] none)).1 outer
        + totalTimeOf (runCall (initProfiler t0) (CallTree.node outer
            [Item.work w1, Item.call (CallTree.node inner innerBody innerRaises),
             Item.work w2] none)).1 inner)
    ∧
    (totalTimeOf (runCall (initProfiler t0) (CallTree.node outer
        [Item.work a, Item.call (CallTree.node foo fooBody fooRaises),
         Item.work b, Item.call (CallTree.node bar barBody barRaises),
         Item.work c, Item.call (CallTree.node baz bazBody bazRaises),
         Item.work e] none)).1 outer
      = totalTimeOf (runCall (initProfiler t0) (CallTree.node outer
          [Item.work a, Item.call (CallTree.node foo fooBody fooRaises),
           Item.work b, Item.call (CallTree.node bar barBody barRaises),
           Item.work c, Item.call (CallTree.node baz bazBody bazRaises),
           Item.work e] none)).1 foo
        + totalTimeOf (runCall (initProfiler t0) (CallTree.node outer
            [Item.work a, Item.call (CallTree.node foo fooBody fooRaises),
             Item.work b, Item.call (CallTree.node bar barBody barRaises),
             Item.work c, Item.call (CallTree.node baz bazBody bazRaises),
             Item.work e] none)).1 bar
        + totalTimeOf (runCall (initProfiler t0) (CallTree.node outer
            [Item.work a, Item.call (CallTree.node foo fooBody fooRaises),
             Item.work b, Item.call (CallTree.node bar barBody barRaises),
             Item.work c, Item.call (CallTree.node baz bazBody bazRaises),
             Item.work e] none)).1 baz
        + selfTimeOf (runCall (initProfiler t0) (CallTree.node outer
            [Item.work a, Item.call (CallTree.node foo fooBody fooRaises),
             Item.work b, Item.call (CallTree.node bar barBody barRaises),
             Item.work c, Item.call (CallTree.node baz bazBody bazRaises),
             Item.work e] none)).1 outer) := by
  have h0 : (initProfiler t0).stack = 0 :: [] := rfl
  have hIn1 : ∀ s ∈ itemsSamples innerBody, ¬s.1 = outer := fun s hs => (hIn s hs).1
  have hIn2 : ∀ s ∈ itemsSamples innerBody, ¬s.1 = inner := fun s hs => (hIn s hs).2
  constructor
  · rw [runCall_spec _ (initProfiler t0) 0 [] h0]
    simp only [initProfiler]
    rw [totalTimeOf_of_samples, selfTimeOf_of_samples, totalTimeOf_of_samples]
    simp only [treeSamples, itemsSamples, itemsDuration, itemsChildSum,
      treeDuration, ite_self, List.append_nil, Nat.add_zero]
    simp only [totalsFor, selfsFor, samplesFor_append,
      samplesFor_nil_of _ _ hIn1, samplesFor_nil_of _ _ hIn2,
      samplesFor_single_self, samplesFor_single_ne _ _ _ _ hoi,
      samplesFor_single_ne _ _ _ _ (fun hh => hoi hh.symm),
      List.map_append, List.sum_append, List.map_nil, List.sum_nil,
      List.map_cons, List.sum_cons, List.nil_append]
    omega
  · rw [runCall_spec _ (initProfiler t0) 0 [] h0]
    simp only [initProfiler]
    rw [totalTimeOf_of_samples, totalTimeOf_of_samples, totalTimeOf_of_samples,
      totalTimeOf_of_samples, selfTimeOf_of_samples]
    have hBf1 := fun s hs => (hBf s hs).1
    have hBf2 := fun s hs => (hBf s hs).2.1
    have hBf3 := fun s hs => (hBf s hs).2.2.1
    have hBf4 := fun s hs => (hBf s hs).2.2.2
    have hBb1 := fun s hs => (hBb s hs).1
    have hBb2 := fun s hs => (hBb s hs).2.1
    have hBb3 := fun s hs => (hBb s hs).2.2.1
    have hBb4 := fun s hs => (hBb s hs).2.2.2
    have hBz1 := fun s hs => (hBz s hs).1
    have hBz2 := fun s hs => (hBz s hs).2.1
    have hBz3 := fun s hs => (hBz s hs).2.2.1
    have hBz4 := fun s hs => (hBz s hs).2.2.2
    cases hf : treeThrows (CallTree.node foo fooBody fooRaises) <;>
      cases hg : treeThrows (CallTree.node bar barBody barRaises) <;>
        cases hz : treeThrows (CallTree.node baz bazBody bazRaises) <;>
          · simp only [treeSamples, itemsSamples, itemsDuration, itemsChildSum,
              treeDuration, hf, hg, hz, if_true, if_false, Bool.false_eq_true,
              ite_self, List.append_nil, Nat.add_zero, List.append_assoc]
            simp only [totalsFor, selfsFor, samplesFor_append,
              samplesFor_nil_of _ _ hBf1, samplesFor_nil_of _ _ hBf2,
              samplesFor_nil_of _ _ hBf3, samplesFor_nil_of _ _ hBf4,
              samplesFor_nil_of _ _ hBb1, samplesFor_nil_of _ _ hBb2,
              samplesFor_nil_of _ _ hBb3, samplesFor_nil_of _ _ hBb4,
              samplesFor_nil_of _ _ hBz1, samplesFor_nil_of _ _ hBz2,
              samplesFor_nil_of _ _ hBz3, samplesFor_nil_of _ _ hBz4,
              samplesFor_single_self,
              samplesFor_single_ne _ _ _ _ hfo, samplesFor_single_ne _ _ _ _ hbo,
              samplesFor_single_ne _ _ _ _ hzo, samplesFor_single_ne _ _ _ _ hfb,
              samplesFor_single_ne _ _ _ _ hfz, samplesFor_single_ne _ _ _ _ hbz,
              samplesFor_single_ne _ _ _ _ hof, samplesFor_single_ne _ _ _ _ hob,
              samplesFor_single_ne _ _ _ _ hoz, samplesFor_single_ne _ _ _ _ hbf,
              samplesFor_single_ne _ _ _ _ hzf, samplesFor_single_ne _ _ _ _ hzb,
              List.map_append, List.sum_append, List.map_nil, List.sum_nil,
              List.map_cons, List.sum_cons, List.nil_append]
            omega

/-- Witness for the attribution theorem at a concrete instantiation in which
the first sibling raises, so the remaining siblings never run. -/
theorem nested_and_sibling_time_attribution_witness :
    (¬"inner" = "outer") ∧
    ((totalTimeOf (runCall (initProfiler 0) (CallTree.node "outer"
        [Item.work 1, Item.call (CallTree.node "inner" [] none),
         Item.work 2] none)).1 "outer"
      = selfTimeOf (runCall (initProfiler 0) (CallTree.node "outer"
          [Item.work 1, Item.call (CallTree.node "inner" [] none),
           Item.work 2] none)).1 "outer"
        + totalTimeOf (runCall (initProfiler 0) (CallTree.node "outer"
            [Item.work 1, Item.call (CallTree.node "inner" [] none),
             Item.work 2] none)).1 "inner")
    ∧
    (totalTimeOf (runCall (initProfiler 0) (CallTree.node "outer"
        [Item.work 1, Item.call (CallTree.node "foo" [] (some "boom")),
         Item.work 1, Item.call (CallTree.node "bar" [] none),
         Item.work 1, Item.call (CallTree.node "baz" [] none),
         Item.work 1] none)).1 "outer"
      = totalTimeOf (runCall (initProfiler 0) (CallTree.node "outer"
          [Item.work 1, Item.call (CallTree.node "foo" [] (some "boom")),
           Item.work 1, Item.call (CallTree.node "bar" [] none),
           Item.work 1, Item.call (CallTree.node "baz" [] none),
           Item.work 1] none)).1 "foo"
        + totalTimeOf (runCall (initProfiler 0) (CallTree.node "outer"
            [Item.work 1, Item.call (CallTree.node "foo" [] (some "boom")),
             Item.work 1, Item.call (CallTree.node "bar" [] none),
             Item.work 1, Item.call (CallTree.node "baz" [] none),
             Item.work 1] none)).1 "bar"
        + totalTimeOf (runCall (initProfiler 0) (CallTree.node "outer"
            [Item.work 1, Item.call (CallTree.node "foo" [] (some "boom")),
             Item.work 1, Item.call (CallTree.node "bar" [] none),
             Item.work 1, Item.call (CallTree.node "baz" [] none),
             Item.work 1] none)).1 "baz"
        + selfTimeOf (runCall (initProfiler 0) (CallTree.node "outer"
            [Item.work 1, Item.call (CallTree.node "foo" [] (some "boom")),
             Item.work 1, Item.call (CallTree.node "bar" [] none),
             Item.work 1, Item.call (CallTree.node "baz" [] none),
             Item.work 1] none)).1 "outer")) :=
  ⟨by decide,
    nested_and_sibling_time_attribution "outer" "inner" "foo" "bar" "baz"
      1 2 1 1 1 1 0 [] [] [] [] none (some "boom") none none
      (by decide) (by decide) (by decide) (by decide) (by decide) (by decide)
      (by decide) (by decide) (by decide) (by decide) (by decide) (by decide)
      (by decide) (by decide) (by decide) (by decide) (by decide)⟩

/-- Number of executed invocations recorded under one name in a session. -/
def invocationCount (n : String) (ts : List CallTree) : Nat :=
  (sessionSamples ts).countP (fun s => s.1 == n)

theorem samplesFor_length (n : String) (l : List Sample) :
    (samplesFor n l).length = l.countP (fun s => s.1 == n) := by
  simp [samplesFor, List.countP_eq_length_filter]

/-- C2: the timing bracket of a wrapped call executes in full even when the
underlying callable (or any nested wrapped call) raises: the sample store
after a session holds exactly one `totalTime` entry and one `selfTime` entry
per executed invocation of a name, whether or not any call threw; one
invocation records exactly the executed samples (its own included, on the
error path too), restores the stack, and propagates the original error
unchanged to the wrapper's caller. -/
theorem throwing_calls_still_recorded (trees : List CallTree) (n : String)
    (t0 : Nat) (st : ProfilerState) (t : CallTree) (c : Nat) (rest : List Nat)
    (h : st.stack = c :: rest) :
    (((lookupSamples (runSession (initProfiler t0) trees).samples n).getD
        ⟨[], []⟩).totalTimes.length = invocationCount n trees
      ∧ ((lookupSamples (runSession (initProfiler t0) trees).samples n).getD
          ⟨[], []⟩).selfTimes.length = invocationCount n trees)
    ∧ ((runCall st t).2 = treeError t
      ∧ (runCall st t).1.samples = recordAll st.samples (treeSamples t)
      ∧ (runCall st t).1.stack = (c + treeDuration t) :: rest) := by
  constructor
  · have h0 : (initProfiler t0).stack = 0 :: [] := rfl
    rw [runSession_spec trees (initProfiler t0) 0 [] h0]
    have hbase : lookupSamples (initProfiler t0).samples n = none := rfl
    simp only [initProfiler] at hbase ⊢
    rw [lookup_recordAll, hbase]
    cases hS : samplesFor n (sessionSamples trees) with
    | nil => simp [invocationCount, ← samplesFor_length, hS]
    | cons p ps => simp [invocationCount, ← samplesFor_length, hS]
  · rw [runCall_spec t st c rest h]
    exact ⟨rfl, rfl, rfl⟩

/-- Witness for the bracket/unwinding theorem: a session of three calls to one
name, the second of which raises; its sample set still has three entries of
each kind, and the single throwing invocation returns the original error with
the stack restored. -/
theorem throwing_calls_still_recorded_witness :
    (((lookupSamples (runSession (initProfiler 0)
          [CallTree.node "f" [Item.work 1] none,
           CallTree.node "f" [Item.work 2] (some "boom"),
           CallTree.node "f" [] none]).samples "f").getD
        ⟨[], []⟩).totalTimes.length
        = invocationCount "f"
            [CallTree.node "f" [Item.work 1] none,
             CallTree.node "f" [Item.work 2] (some "boom"),
             CallTree.node "f" [] none]
      ∧ ((lookupSamples (runSession (initProfiler 0)
            [CallTree.node "f" [Item.work 1] none,
             CallTree.node "f" [Item.work 2] (some "boom"),
             CallTree.node "f" [] none]).samples "f").getD
          ⟨[], []⟩).selfTimes.length
        = invocationCount "f"
            [CallTree.node "f" [Item.work 1] none,
             CallTree.node "f" [Item.work 2] (some "boom"),
             CallTree.node "f" [] none])
    ∧ ((runCall (initProfiler 0)
          (CallTree.node "f" [Item.work 2] (some "boom"))).2
        = treeError (CallTree.node "f" [Item.work 2] (some "boom"))
      ∧ (runCall (initProfiler 0)
          (CallTree.node "f" [Item.work 2] (some "boom"))).1.samples
        = recordAll (initProfiler 0).samples
            (treeSamples (CallTree.node "f" [Item.work 2] (some "boom")))
      ∧ (runCall (initProfiler 0)
          (CallTree.node "f" [Item.work 2] (some "boom"))).1.stack
        = (0 + treeDuration (CallTree.node "f" [Item.work 2] (some "boom"))) :: []) :=
  throwing_calls_still_recorded
    [CallTree.node "f" [Item.work 1] none,
     CallTree.node "f" [Item.work 2] (some "boom"),
     CallTree.node "f" [] none] "f" 0 (initProfiler 0)
    (CallTree.node "f" [Item.work 2] (some "boom")) 0 [] rfl

/-- C3: lifecycle of the nesting stack `totalTimesStack`.  It is created with
exactly one zero entry; executing the body of a wrapped call happens at depth
one greater than the caller's depth (the entry `push`); a whole wrapped call —
returning or throwing — restores the stack to its entry shape, with the
call's total time folded into the previous top; and any session of wrapped
invocations returns the stack to a single-entry state. -/
theorem totalTimesStack_lifecycle (t0 : Nat) (st : ProfilerState)
    (l : List Item) (name : String) (body : List Item) (raises : Option String)
    (c : Nat) (rest : List Nat) (trees : List CallTree)
    (h : st.stack = c :: rest) :
    ((initProfiler t0).stack = [0])
    ∧ ((runItems st l).1.stack = (c + itemsChildSum l) :: rest)
    ∧ ((runItems { st with stack := 0 :: st.stack } body).1.stack.length
        = st.stack.length + 1)
    ∧ ((runCall st (CallTree.node name body raises)).1.stack
        = (c + treeDuration (CallTree.node name body raises)) :: rest)
    ∧ ((runSession (initProfiler t0) trees).stack = [sessionDuration trees]) := by
  refine ⟨rfl, ?_, ?_, ?_, ?_⟩
  · rw [runItems_spec l st c rest h]
  · rw [runItems_spec body { st with stack := 0 :: st.stack } 0 (c :: rest) (by simp [h])]
    simp [h]
  · rw [runCall_spec (CallTree.node name body raises) st c rest h]
  · rw [runSession_spec trees (initProfiler t0) 0 [] rfl]
    simp

/-- Witness for the stack lifecycle theorem, on a nested call whose inner
invocation raises. -/
theorem totalTimesStack_lifecycle_witness :
    ((initProfiler 3).stack = [0])
    ∧ ((runItems (initProfiler 3)
          [Item.call (CallTree.node "g" [Item.work 2] (some "boom"))]).1.stack
        = (0 + itemsChildSum
            [Item.call (CallTree.node "g" [Item.work 2] (some "boom"))]) :: [])
    ∧ ((runItems { initProfiler 3 with stack := 0 :: (initProfiler 3).stack }
          [Item.call (CallTree.node "g" [Item.work 2] (some "boom"))]).1.stack.length
        = (initProfiler 3).stack.length + 1)
    ∧ ((runCall (initProfiler 3) (CallTree.node "f"
          [Item.call (CallTree.node "g" [Item.work 2] (some "boom"))] none)).1.stack
        = (0 + treeDuration (CallTree.node "f"
            [Item.call (CallTree.node "g" [Item.work 2] (some "boom"))] none)) :: [])
    ∧ ((runSession (initProfiler 3)
          [CallTree.node "f"
            [Item.call (CallTree.node "g" [Item.work 2] (some "boom"))] none]).stack
        = [sessionDuration
            [CallTree.node "f"
              [Item.call (CallTree.node "g" [Item.work 2] (some "boom"))] none]]) :=
  totalTimesStack_lifecycle 3 (initProfiler 3)
    [Item.call (CallTree.node "g" [Item.work 2] (some "boom"))]
    "f" [Item.call (CallTree.node "g" [Item.work 2] (some "boom"))] none 0 []
    [CallTree.node "f"
      [Item.call (CallTree.node "g" [Item.work 2] (some "boom"))] none] rfl

/-- A sequence of `addSample` calls under one name, in call order. -/
def addManySamples (st : ProfilerState) (nm : String) (ps : List (Nat × Nat)) :
    ProfilerState :=
  ps.foldl (fun s p => addSample s nm p.1 p.2) st

/-- C9: `addSample(name, totalTime, selfTime)` appends the pair to the sample
set keyed by `name` — opaque strings such as "constructor" or "toString"
included, since the code guards the map with `hasOwnProperty` — creating the
set on first use; other names are untouched; and replaying any sequence of
pairs under one name accumulates into the same sample set with insertion
order equal to call order. -/
theorem addSample_accumulates (st : ProfilerState) (nm m : String)
    (t s : Nat) (ps : List (Nat × Nat)) (hm : ¬m = nm) :
    (lookupSamples (addSample st nm t s).samples nm
      = some ⟨((lookupSamples st.samples nm).getD ⟨[], []⟩).totalTimes ++ [t],
              ((lookupSamples st.samples nm).getD ⟨[], []⟩).selfTimes ++ [s]⟩)
    ∧ (lookupSamples (addSample st nm t s).samples m = lookupSamples st.samples m)
    ∧ (((lookupSamples (addManySamples st nm ps).samples nm).getD ⟨[], []⟩)
      = ⟨((lookupSamples st.samples nm).getD ⟨[], []⟩).totalTimes
            ++ ps.map Prod.fst,
         ((lookupSamples st.samples nm).getD ⟨[], []⟩).selfTimes
            ++ ps.map Prod.snd⟩) := by
  refine ⟨lookup_updateSamples_self st.samples nm t s,
    lookup_updateSamples_ne st.samples nm m t s hm, ?_⟩
  induction ps generalizing st with
  | nil => simp [addManySamples]
  | cons p pl ih =>
      have step : addManySamples st nm (p :: pl)
          = addManySamples (addSample st nm p.1 p.2) nm pl := by
        simp [addManySamples]
      rw [step, ih (addSample st nm p.1 p.2)]
      have hlk : lookupSamples (addSample st nm p.1 p.2).samples nm
          = some ⟨((lookupSamples st.samples nm).getD ⟨[], []⟩).totalTimes ++ [p.1],
                  ((lookupSamples st.samples nm).getD ⟨[], []⟩).selfTimes ++ [p.2]⟩ :=
        lookup_updateSamples_self st.samples nm p.1 p.2
      rw [hlk]
      simp

/-- Witness for the accumulation theorem, under the name "constructor". -/
theorem addSample_accumulates_witness :
    (lookupSamples (addSample (initProfiler 0) "constructor" 5 3).samples "constructor"
      = some ⟨((lookupSamples (initProfiler 0).samples "constructor").getD
                ⟨[], []⟩).totalTimes ++ [5],
              ((lookupSamples (initProfiler 0).samples "constructor").getD
                ⟨[], []⟩).selfTimes ++ [3]⟩)
    ∧ (lookupSamples (addSample (initProfiler 0) "constructor" 5 3).samples "toString"
      = lookupSamples (initProfiler 0).samples "toString")
    ∧ (((lookupSamples (addManySamples (initProfiler 0) "constructor"
          [(4, 2), (7, 7)]).samples "constructor").getD ⟨[], []⟩)
      = ⟨((lookupSamples (initProfiler 0).samples "constructor").getD
            ⟨[], []⟩).totalTimes ++ [(4, 2), (7, 7)].map Prod.fst,
         ((lookupSamples (initProfiler 0).samples "constructor").getD
            ⟨[], []⟩).selfTimes ++ [(4, 2), (7, 7)].map Prod.snd⟩) :=
  addSample_accumulates (initProfiler 0) "constructor" "toString" 5 3
    [(4, 2), (7, 7)] (by decide)

/-!
Graph walker (`wrapObject`).

The object graph lives in an explicit heap: an object is addressed by its
position in a list, carries its `typeof`-kind (callable or not), its own
enumerable properties in insertion order, and — for functions — the
non-enumerable `prototype` slot, which `Object.keys` does not report but the
walker visits explicitly.  A `JSValue` is `undefined`, `null`, an opaque
primitive with its `typeof` tag, or a reference; reference equality (JS
identity, what `seenObjects.indexOf` compares) is address equality.
-/

inductive JSValue where
  | undefinedV
  | vnull
  | prim (tag : String)
  | ref (a : Nat)
deriving Repr, DecidableEq

structure HeapObj where
  callable : Bool
  props : List (String × JSValue)
  protoProp : JSValue
deriving Repr, DecidableEq

abbrev Heap := List HeapObj

/-- Dereference; a dangling address reads as an empty plain object. -/
def heapGet (h : Heap) (a : Nat) : HeapObj :=
  (h[a]?).getD ⟨false, [], .undefinedV⟩

def heapSet (h : Heap) (a : Nat) (o : HeapObj) : Heap :=
  h.set a o

/-- `object[key]` on own enumerable properties. -/
def propGet (o : HeapObj) (k : String) : JSValue :=
  ((o.props.find? (fun p => p.1 == k)).map Prod.snd).getD .undefinedV

/-- `object[key] = v` for a key that exists (the walker only assigns keys it
obtained from the key enumeration). -/
def propSet (o : HeapObj) (k : String) (v : JSValue) : HeapObj :=
  { o with props := o.props.map (fun p => if p.1 == k then (p.1, v) else p) }

/-- `this.keys(object)`: own enumerable keys, in insertion order. -/
def keysOf (o : HeapObj) : List String :=
  o.props.map Prod.fst

/-- Traversal state: the heap, `seenObjects` (the values pushed, compared by
identity), and the log of `wrapFunction` events — one `(full name, target)`
entry per property slot the walker wraps. -/
structure WalkState where
  heap : Heap
  seen : List JSValue
  wraps : List (String × JSValue)
deriving Repr, DecidableEq

inductive WalkResult where
  | ok (ws : WalkState) (v : JSValue)
  | thrown (msg : String)
deriving Repr, DecidableEq

/-- Heap effect of `wrapFunction` as seen by the traversal: a new wrapper
function object is allocated, with no own properties and a fresh empty
`prototype` object.  Returns the new heap and the wrapper's address.  (No
revision of `wrapFunction` in the repository copies the wrapped function's own
properties onto the wrapper; see the property-transparency theorem below.) -/
def allocWrapper (h : Heap) : Heap × Nat :=
  (h ++ [⟨false, [], .undefinedV⟩, ⟨true, [], .ref h.length⟩], h.length + 1)

mutual
/-- `Profiler.prototype.wrapObject(objectName, object, seenObjects)`, fuelled.
`none` means the fuel ran out (the termination theorem below shows a fuel of
`heap length + 1` always suffices on closed heaps); `some` reproduces the
call's outcome: the state and returned root, or the propagated exception
(`Object.keys` throws a `TypeError` on primitives in ES5, and so does the
`keys` fallback shipped with the profiler). -/
def wrapObjF (fuel : Nat) (ws : WalkState) (objectName : String)
    (v : JSValue) : Option WalkResult :=
  match fuel with
  | 0 => none
  | fuel + 1 =>
      if v = .vnull ∨ v = .undefinedV then some (.ok ws v)
      else if v ∈ ws.seen then some (.ok ws v)
      else
        match v with
        | .ref a =>
            match (if (heapGet ws.heap a).callable then
                     wrapObjF fuel { ws with seen := ws.seen ++ [v] }
                       (objectName ++ ".prototype") (heapGet ws.heap a).protoProp
                   else some (.ok { ws with seen := ws.seen ++ [v] } v)) with
            | none => none
            | some (.thrown msg) => some (.thrown msg)
            | some (.ok ws2 _) =>
                match wrapPropsF fuel ws2 objectName a
                    (keysOf (heapGet ws2.heap a)) with
                | none => none
                | some (.thrown msg) => some (.thrown msg)
                | some (.ok ws3 _) => some (.ok ws3 v)
        | _ => some (.thrown "keys called on non-object")
termination_by (fuel, 0, 0)

/-- The `for` loop over `names` inside `wrapObject`: each key's value is read
from the current heap; a function-valued slot is replaced by a fresh wrapper
(logged in `wraps`) and then — the intended fallthrough — the original value
is recursed into; a non-null object value is recursed into; primitives, null
and undefined are left untouched. -/
def wrapPropsF (fuel : Nat) (ws : WalkState) (objectName : String) (a : Nat)
    (keys : List String) : Option WalkResult :=
  match keys with
  | [] => some (.ok ws (.ref a))
  | key :: rest =>
      match propGet (heapGet ws.heap a) key with
      | .ref b =>
          if (heapGet ws.heap b).callable then
            match wrapObjF fuel
                { heap := heapSet (allocWrapper ws.heap).1 a
                    (propSet (heapGet (allocWrapper ws.heap).1 a) key
                      (.ref (allocWrapper ws.heap).2)),
                  seen := ws.seen,
                  wraps := ws.wraps ++ [(objectName ++ "." ++ key, .ref b)] }
                (objectName ++ "." ++ key) (.ref b) with
            | none => none
            | some (.thrown msg) => some (.thrown msg)
            | some (.ok ws2 _) => wrapPropsF fuel ws2 objectName a rest
          else
            match wrapObjF fuel ws (objectName ++ "." ++ key) (.ref b) with
            | none => none
            | some (.thrown msg) => some (.thrown msg)
            | some (.ok ws2 _) => wrapPropsF fuel ws2 objectName a rest
      | _ => wrapPropsF fuel ws objectName a rest
termination_by (fuel, 1, keys.length)
end

/-! Well-formedness of heaps, traversal invariants, and supporting lemmas. -/

/-- A value is within a heap: any reference points below the heap's length. -/
def valueOK (orig : Heap) (v : JSValue) : Bool :=
  match v with
  | .ref a => a < orig.length
  | _ => true

/-- A closed heap with duplicate-free property keys: every reference stored in
a property or prototype slot points into the heap (JS heaps are closed — there
are no dangling references), and an object's own keys are distinct (JS objects
cannot carry a key twice). -/
def heapWF (h : Heap) : Prop :=
  (∀ o ∈ h, valueOK h o.protoProp = true ∧ ∀ p ∈ o.props, valueOK h p.2 = true)
  ∧ ∀ o ∈ h, (o.props.map Prod.fst).Nodup

instance (h : Heap) : Decidable (heapWF h) := by
  unfold heapWF
  infer_instance

/-- Every value stored in some object's property slots, over the whole heap. -/
def heapPropValues (h : Heap) : List JSValue :=
  (h.map (fun o => o.props.map Prod.snd)).join

/-- Number of references among the seen values. -/
def refCount (l : List JSValue) : Nat :=
  (l.filter (fun v => match v with | .ref _ => true | _ => false)).length

/-- Traversal invariant relating a walk state to the heap the traversal
started from: `seenObjects` holds pairwise distinct identities, every seen
reference points into the original heap, the heap only grows, and any original
object whose identity has not been seen is still unchanged. -/
structure Inv (orig : Heap) (ws : WalkState) : Prop where
  nodup : ws.seen.Nodup
  seenOK : ∀ v ∈ ws.seen, valueOK orig v = true
  hlen : orig.length ≤ ws.heap.length
  heapPres : ∀ a, a < orig.length → JSValue.ref a ∉ ws.seen →
    heapGet ws.heap a = heapGet orig a

theorem heapGet_append (h l : Heap) (a : Nat) (ha : a < h.length) :
    heapGet (h ++ l) a = heapGet h a := by
  simp [heapGet, List.getElem?_append_left ha]

theorem heapGet_set_self (h : Heap) (a : Nat) (o : HeapObj) (ha : a < h.length) :
    heapGet (heapSet h a o) a = o := by
  simp [heapGet, heapSet, List.getElem?_set_eq ha]

theorem heapGet_set_ne (h : Heap) (a b : Nat) (o : HeapObj) (hab : ¬b = a) :
    heapGet (heapSet h a o) b = heapGet h b := by
  simp [heapGet, heapSet, List.getElem?_set_ne (fun he => hab he.symm)]

theorem heapGet_mem (h : Heap) (a : Nat) (ha : a < h.length) : heapGet h a ∈ h := by
  rw [heapGet, List.getElem?_eq_getElem ha]
  exact List.getElem_mem ha

theorem propGet_propSet_ne (o : HeapObj) (k k' : String) (v : JSValue)
    (hk : ¬k' = k) : propGet (propSet o k v) k' = propGet o k' := by
  unfold propGet propSet
  simp only
  induction o.props with
  | nil => simp
  | cons p ps ih =>
      by_cases hpk : p.1 = k
      · have hb : (p.1 == k) = true := by simp [hpk]
        have hb2 : (p.1 == k') = false := by
          simp [hpk]; intro he; exact hk he.symm
        simp only [List.map_cons, hb, if_true, List.find?]
        simp only [show ((k, v) : String × JSValue).1 = k from rfl] at *
        have : (k == k') = false := by
          simp; intro he; exact hk he.symm
        simp [this, hb2] at *
        simpa using ih
      · have hb : (p.1 == k) = false := by simp [hpk]
        by_cases hpk2 : p.1 = k'
        · have hb2 : (p.1 == k') = true := by simp [hpk2]
          simp [List.find?, hb, hb2]
        · have hb2 : (p.1 == k') = false := by simp [hpk2]
          simp only [List.map_cons, hb, if_false, Bool.false_eq_true, List.find?, hb2]
          simpa using ih

theorem propGet_mem_values (o : HeapObj) (k : String) (b : Nat)
    (h : propGet o k = .ref b) : JSValue.ref b ∈ o.props.map Prod.snd := by
  unfold propGet at h
  cases hf : o.props.find? (fun p => p.1 == k) with
  | none => rw [hf] at h; simp at h
  | some p =>
      rw [hf] at h
      simp at h
      have hp : p ∈ o.props := List.mem_of_find?_eq_some hf
      rw [← h]
      exact List.mem_map_of_mem Prod.snd hp

theorem mem_heapPropValues (h : Heap) (a : Nat) (v : JSValue)
    (ha : a < h.length) (hv : v ∈ (heapGet h a).props.map Prod.snd) :
    v ∈ heapPropValues h := by
  unfold heapPropValues
  rw [List.mem_join]
  exact ⟨(heapGet h a).props.map Prod.snd,
    List.mem_map_of_mem _ (heapGet_mem h a ha), hv⟩

theorem refCount_append (l1 l2 : List JSValue) :
    refCount (l1 ++ l2) = refCount l1 + refCount l2 := by
  simp [refCount]

theorem refCount_le (orig : Heap) (ws : WalkState) (hinv : Inv orig ws) :
    refCount ws.seen ≤ orig.length := by
  classical
  let f : JSValue → Option Nat := fun v => match v with | .ref a => some a | _ => none
  have hinj : ∀ v w a, f v = some a → f w = some a → v = w := by
    intro v w a hv hw
    cases v <;> simp [f] at hv
    cases w <;> simp [f] at hw
    rw [hv, hw]
  have hnd : (ws.seen.filterMap f).Nodup := hinv.nodup.filterMap hinj
  have hlt : ∀ x ∈ ws.seen.filterMap f, x < orig.length := by
    intro x hx
    rw [List.mem_filterMap] at hx
    obtain ⟨v, hv, hfv⟩ := hx
    have := hinv.seenOK v hv
    cases v <;> simp [f] at hfv
    rename_i a
    simp [valueOK] at this
    rw [← hfv]
    exact this
  have hlen : (ws.seen.filterMap f).length = refCount ws.seen := by
    unfold refCount
    induction ws.seen with
    | nil => simp
    | cons v vs ih => cases v <;> simp [f, List.filter_cons, ih]
  rw [← hlen]
  have hsub : (ws.seen.filterMap f).toFinset ⊆ Finset.range orig.length := by
    intro x hx
    rw [List.mem_toFinset] at hx
    exact Finset.mem_range.mpr (hlt x hx)
  have := Finset.card_le_card hsub
  rw [Finset.card_range] at this
  rwa [List.toFinset_card_of_nodup hnd] at this

theorem mem_of_ext {α : Type} {l1 l2 tl : List α} (hext : l2 = l1 ++ tl)
    {x : α} (h : x ∈ l1) : x ∈ l2 := by
  subst hext; exact List.mem_append_left _ h

theorem not_mem_of_ext {α : Type} {l1 l2 tl : List α} (hext : l2 = l1 ++ tl)
    {x : α} (h : x ∉ l2) : x ∉ l1 :=
  fun hx => h (mem_of_ext hext hx)

theorem Inv.push (orig : Heap) (ws : WalkState) (hinv : Inv orig ws)
    (v : JSValue) (hvOK : valueOK orig v = true) (hns : v ∉ ws.seen) :
    Inv orig { ws with seen := ws.seen ++ [v] } where
  nodup := by
    rw [List.nodup_append]
    refine ⟨hinv.nodup, List.nodup_singleton v, ?_⟩
    intro x hx hxv
    rw [List.mem_singleton] at hxv
    subst hxv
    exact hns hx
  seenOK := by
    intro w hw
    rw [List.mem_append] at hw
    cases hw with
    | inl h => exact hinv.seenOK w h
    | inr h => rw [List.mem_singleton] at h; subst h; exact hvOK
  hlen := hinv.hlen
  heapPres := by
    intro a ha hna
    exact hinv.heapPres a ha (fun hm => hna (List.mem_append_left _ hm))

/-- Behaviour of one successful `wrapObject` call relative to the heap the
traversal started from: the call returns the same root identity it was given,
only extends `seenObjects`, preserves the invariant, leaves every original
object unchanged unless its identity was newly visited during the call, and
every `wrapFunction` event it logs targets a value stored in some property
slot of the original heap. -/
def ObjEffectStmt (orig : Heap) (fuel : Nat) : Prop :=
  ∀ (ws : WalkState) (name : String) (v : JSValue) (ws2 : WalkState)
    (v2 : JSValue), Inv orig ws → valueOK orig v = true →
    wrapObjF fuel ws name v = some (.ok ws2 v2) →
    v2 = v
    ∧ (∃ tl, ws2.seen = ws.seen ++ tl)
    ∧ Inv orig ws2
    ∧ (∀ a, a < orig.length →
        (JSValue.ref a ∈ ws.seen ∨ JSValue.ref a ∉ ws2.seen) →
        heapGet ws2.heap a = heapGet ws.heap a)
    ∧ (∃ wtl, ws2.wraps = ws.wraps ++ wtl
        ∧ ∀ ev ∈ wtl, ev.2 ∈ heapPropValues orig)

/-- Behaviour of a successful run of the key loop of `wrapObject` over an
object that is being visited for the first time: same shape of guarantees as
for a whole call, except that the walked object's own slots are rewritten. -/
def PropsEffectStmt (orig : Heap) (fuel : Nat) : Prop :=
  ∀ (ws : WalkState) (name : String) (addr : Nat) (keys : List String)
    (ws2 : WalkState) (v2 : JSValue), Inv orig ws → addr < orig.length →
    JSValue.ref addr ∈ ws.seen →
    (∀ k ∈ keys, propGet (heapGet ws.heap addr) k = propGet (heapGet orig addr) k) →
    keys.Nodup →
    wrapPropsF fuel ws name addr keys = some (.ok ws2 v2) →
    (∃ tl, ws2.seen = ws.seen ++ tl)
    ∧ Inv orig ws2
    ∧ (∀ a, a < orig.length → ¬a = addr →
        (JSValue.ref a ∈ ws.seen ∨ JSValue.ref a ∉ ws2.seen) →
        heapGet ws2.heap a = heapGet ws.heap a)
    ∧ (∃ wtl, ws2.wraps = ws.wraps ++ wtl
        ∧ ∀ ev ∈ wtl, ev.2 ∈ heapPropValues orig)

/-- The key-loop phase of one `wrapObject` call on a first-visit reference,
given the state reached after the optional prototype walk. -/
theorem keysPhase (orig : Heap) (hwf : heapWF orig) (n : Nat)
    (ihProps : PropsEffectStmt orig n) (ws wsB ws2 : WalkState) (name : String)
    (a : Nat) (vC : JSValue) (tlB : List JSValue) (wtlB : List (String × JSValue))
    (hinvB : Inv orig wsB)
    (hseenB : wsB.seen = ws.seen ++ (JSValue.ref a :: tlB))
    (hgB : heapGet wsB.heap a = heapGet orig a)
    (ha : a < orig.length)
    (hwrapsB : wsB.wraps = ws.wraps ++ wtlB)
    (hwtlB : ∀ ev ∈ wtlB, ev.2 ∈ heapPropValues orig)
    (hpresB : ∀ b, b < orig.length →
      (JSValue.ref b ∈ ws.seen ∨ JSValue.ref b ∉ wsB.seen) →
      heapGet wsB.heap b = heapGet ws.heap b)
    (hnsA : JSValue.ref a ∉ ws.seen)
    (hkeys : wrapPropsF n wsB name a (keysOf (heapGet wsB.heap a))
      = some (.ok ws2 vC)) :
    (∃ tl, ws2.seen = ws.seen ++ tl)
    ∧ Inv orig ws2
    ∧ (∀ b, b < orig.length →
        (JSValue.ref b ∈ ws.seen ∨ JSValue.ref b ∉ ws2.seen) →
        heapGet ws2.heap b = heapGet ws.heap b)
    ∧ (∃ wtl, ws2.wraps = ws.wraps ++ wtl
        ∧ ∀ ev ∈ wtl, ev.2 ∈ heapPropValues orig) := by
  have haB : JSValue.ref a ∈ wsB.seen := by
    rw [hseenB]
    exact List.mem_append_right _ (List.mem_cons_self _ _)
  have hkOrig : keysOf (heapGet wsB.heap a) = keysOf (heapGet orig a) := by
    rw [hgB]
  have hnd : (keysOf (heapGet wsB.heap a)).Nodup := by
    rw [hkOrig]
    exact hwf.2 _ (heapGet_mem orig a ha)
  have hpre : ∀ k ∈ keysOf (heapGet wsB.heap a),
      propGet (heapGet wsB.heap a) k = propGet (heapGet orig a) k := by
    intro k _
    rw [hgB]
  obtain ⟨⟨tlC, hseenC⟩, hinvC, hpresC, ⟨wtlC, hwrapsC, hwtlC⟩⟩ :=
    ihProps wsB name a _ ws2 vC hinvB ha haB hpre hnd hkeys
  refine ⟨⟨(JSValue.ref a :: tlB) ++ tlC, ?_⟩, hinvC, ?_, ?_⟩
  · rw [hseenC, hseenB, List.append_assoc]
  · intro b hb hdisj
    have hba : ¬b = a := by
      intro hba
      subst hba
      cases hdisj with
      | inl hmem => exact hnsA hmem
      | inr hnm => exact hnm (mem_of_ext hseenC haB)
    have step1 : heapGet ws2.heap b = heapGet wsB.heap b := by
      refine hpresC b hb hba ?_
      cases hdisj with
      | inl hmem => exact Or.inl (by rw [hseenB]; exact List.mem_append_left _ hmem)
      | inr hnm => exact Or.inr hnm
    have step2 : heapGet wsB.heap b = heapGet ws.heap b := by
      refine hpresB b hb ?_
      cases hdisj with
      | inl hmem => exact Or.inl hmem
      | inr hnm => exact Or.inr (not_mem_of_ext hseenC hnm)
    rw [step1, step2]
  · refine ⟨wtlB ++ wtlC, ?_, ?_⟩
    · rw [hwrapsC, hwrapsB, List.append_assoc]
    · intro ev hev
      rw [List.mem_append] at hev
      cases hev with
      | inl h => exact hwtlB ev h
      | inr h => exact hwtlC ev h

theorem walkEffect (orig : Heap) (hwf : heapWF orig) :
    ∀ fuel, ObjEffectStmt orig fuel ∧ PropsEffectStmt orig fuel := by
  intro fuel
  induction fuel with
  | zero =>
      constructor
      · intro ws name v ws2 v2 _ _ heq
        simp [wrapObjF] at heq
      · intro ws name addr keys
        induction keys generalizing ws with
        | nil =>
            intro ws2 v2 hinv haddr hmem hprops hnd heq
            rw [wrapPropsF] at heq
            simp only [Option.some.injEq, WalkResult.ok.injEq] at heq
            obtain ⟨h1, h2⟩ := heq
            subst h1
            exact ⟨⟨[], by simp⟩, hinv, fun b hb hba hd => rfl,
              ⟨[], by simp, by simp⟩⟩
        | cons key rest ih =>
            intro ws2 v2 hinv haddr hmem hprops hnd heq
            rw [wrapPropsF] at heq
            cases hval : propGet (heapGet ws.heap addr) key with
            | ref b =>
                simp only [hval] at heq
                cases hcb : (heapGet ws.heap b).callable <;>
                  simp [hcb, wrapObjF] at heq
            | undefinedV =>
                simp only [hval] at heq
                exact ih ws ws2 v2 hinv haddr hmem
                  (fun k hk => hprops k (List.mem_cons_of_mem _ hk))
                  (List.Nodup.of_cons hnd) heq
            | vnull =>
                simp only [hval] at heq
                exact ih ws ws2 v2 hinv haddr hmem
                  (fun k hk => hprops k (List.mem_cons_of_mem _ hk))
                  (List.Nodup.of_cons hnd) heq
            | prim tag =>
                simp only [hval] at heq
                exact ih ws ws2 v2 hinv haddr hmem
                  (fun k hk => hprops k (List.mem_cons_of_mem _ hk))
                  (List.Nodup.of_cons hnd) heq
  | succ n ihn =>
      obtain ⟨ihObj, ihProps⟩ := ihn
      have objS : ObjEffectStmt orig (n + 1) := by
        intro ws name v ws2 v2 hinv hvOK heq
        rw [wrapObjF.eq_def] at heq
        simp only [] at heq
        by_cases hnull : v = .vnull ∨ v = .undefinedV
        · rw [if_pos hnull] at heq
          simp only [Option.some.injEq, WalkResult.ok.injEq] at heq
          obtain ⟨h1, h2⟩ := heq
          subst h1; subst h2
          exact ⟨rfl, ⟨[], by simp⟩, hinv, fun a ha hd => rfl,
            ⟨[], by simp, by simp⟩⟩
        · rw [if_neg hnull] at heq
          by_cases hseen : v ∈ ws.seen
          · rw [if_pos hseen] at heq
            simp only [Option.some.injEq, WalkResult.ok.injEq] at heq
            obtain ⟨h1, h2⟩ := heq
            subst h1; subst h2
            exact ⟨rfl, ⟨[], by simp⟩, hinv, fun a ha hd => rfl,
              ⟨[], by simp, by simp⟩⟩
          · rw [if_neg hseen] at heq
            cases v with
            | vnull => exact absurd (Or.inl rfl) hnull
            | undefinedV => exact absurd (Or.inr rfl) hnull
            | prim tag => simp at heq
            | ref a =>
                simp only [] at heq
                have ha : a < orig.length := by simpa [valueOK] using hvOK
                have hinv1 : Inv orig { ws with seen := ws.seen ++ [JSValue.ref a] } :=
                  Inv.push orig ws hinv _ hvOK hseen
                have hga : heapGet ws.heap a = heapGet orig a :=
                  hinv.heapPres a ha hseen
                cases hcall : (heapGet ws.heap a).callable with
                | true =>
                    rw [if_pos (by rw [hcall])] at heq
                    cases hproto : wrapObjF n { ws with seen := ws.seen ++ [JSValue.ref a] }
                        (name ++ ".prototype") (heapGet ws.heap a).protoProp with
                    | none => rw [hproto] at heq; simp at heq
                    | some r =>
                        rw [hproto] at heq
                        cases r with
                        | thrown msg => simp at heq
                        | ok wsB vB =>
                            simp only [] at heq
                            have hprotoOK : valueOK orig (heapGet ws.heap a).protoProp = true := by
                              rw [hga]
                              exact (hwf.1 (heapGet orig a) (heapGet_mem orig a ha)).1
                            obtain ⟨hvB, ⟨tlB, hseenB⟩, hinvB, hpresB,
                              ⟨wtlB, hwrapsB, hwtlB⟩⟩ :=
                              ihObj _ _ _ _ _ hinv1 hprotoOK hproto
                            have hgB : heapGet wsB.heap a = heapGet orig a := by
                              rw [hpresB a ha (Or.inl (List.mem_append_right _
                                (List.mem_singleton_self _)))]
                              exact hga
                            cases hkeys : wrapPropsF n wsB name a
                                (keysOf (heapGet wsB.heap a)) with
                            | none => rw [hkeys] at heq; simp at heq
                            | some r2 =>
                                rw [hkeys] at heq
                                cases r2 with
                                | thrown msg => simp at heq
                                | ok wsC vC =>
                                    simp only [Option.some.injEq,
                                      WalkResult.ok.injEq] at heq
                                    obtain ⟨h1, h2⟩ := heq
                                    subst h1; subst h2
                                    obtain ⟨hext, hinvC, hpresC, hwrapsC⟩ :=
                                      keysPhase orig hwf n ihProps ws wsB _ name a vC
                                        tlB wtlB hinvB
                                        (by rw [hseenB]; simp) hgB ha hwrapsB hwtlB
                                        (by
                                          intro b hb hd
                                          refine hpresB b hb ?_
                                          cases hd with
                                          | inl hm => exact Or.inl (List.mem_append_left _ hm)
                                          | inr hm => exact Or.inr hm)
                                        hseen hkeys
                                    exact ⟨rfl, hext, hinvC, hpresC, hwrapsC⟩
                | false =>
                    rw [if_neg (by rw [hcall]; exact Bool.false_ne_true)] at heq
                    simp only [] at heq
                    cases hkeys : wrapPropsF n { ws with seen := ws.seen ++ [JSValue.ref a] }
                        name a (keysOf (heapGet ws.heap a)) with
                    | none => rw [hkeys] at heq; simp at heq
                    | some r2 =>
                        rw [hkeys] at heq
                        cases r2 with
                        | thrown msg => simp at heq
                        | ok wsC vC =>
                            simp only [Option.some.injEq,
                              WalkResult.ok.injEq] at heq
                            obtain ⟨h1, h2⟩ := heq
                            subst h1; subst h2
                            obtain ⟨hext, hinvC, hpresC, hwrapsC⟩ :=
                              keysPhase orig hwf n ihProps ws _ _ name a vC
                                [] [] hinv1 (by simp) (by exact hga) ha (by simp)
                                (by simp) (by intro b hb hd; rfl) hseen hkeys
                            exact ⟨rfl, hext, hinvC, hpresC, hwrapsC⟩
      refine ⟨objS, ?_⟩
      intro ws name addr keys
      induction keys generalizing ws with
      | nil =>
          intro ws2 v2 hinv haddr hmem hprops hnd heq
          rw [wrapPropsF] at heq
          simp only [Option.some.injEq, WalkResult.ok.injEq] at heq
          obtain ⟨h1, h2⟩ := heq
          subst h1
          exact ⟨⟨[], by simp⟩, hinv, fun b hb hba hd => rfl,
            ⟨[], by simp, by simp⟩⟩
      | cons key rest ih =>
          intro ws2 v2 hinv haddr hmem hprops hnd heq
          rw [wrapPropsF] at heq
          cases hval : propGet (heapGet ws.heap addr) key with
          | undefinedV =>
              simp only [hval] at heq
              exact ih ws ws2 v2 hinv haddr hmem
                (fun k hk => hprops k (List.mem_cons_of_mem _ hk))
                (List.Nodup.of_cons hnd) heq
          | vnull =>
              simp only [hval] at heq
              exact ih ws ws2 v2 hinv haddr hmem
                (fun k hk => hprops k (List.mem_cons_of_mem _ hk))
                (List.Nodup.of_cons hnd) heq
          | prim tag =>
              simp only [hval] at heq
              exact ih ws ws2 v2 hinv haddr hmem
                (fun k hk => hprops k (List.mem_cons_of_mem _ hk))
                (List.Nodup.of_cons hnd) heq
          | ref b =>
              have hvalOrig : propGet (heapGet orig addr) key = .ref b := by
                rw [← hprops key (List.mem_cons_self _ _)]
                exact hval
              have hbOK : valueOK orig (JSValue.ref b) = true := by
                have hmemv : JSValue.ref b ∈ (heapGet orig addr).props.map Prod.snd :=
                  propGet_mem_values _ _ _ hvalOrig
                rw [List.mem_map] at hmemv
                obtain ⟨p, hp, hpv⟩ := hmemv
                rw [← hpv]
                exact (hwf.1 (heapGet orig addr) (heapGet_mem orig addr haddr)).2 p hp
              have hkeyNotRest : key ∉ rest := by
                intro hk
                exact (List.nodup_cons.mp hnd).1 hk
              simp only [hval] at heq
              cases hcb : (heapGet ws.heap b).callable with
              | false =>
                  rw [if_neg (by rw [hcb]; exact Bool.false_ne_true)] at heq
                  cases hobj : wrapObjF (n + 1) ws (name ++ "." ++ key)
                      (JSValue.ref b) with
                  | none => rw [hobj] at heq; simp at heq
                  | some r =>
                      rw [hobj] at heq
                      cases r with
                      | thrown msg => simp at heq
                      | ok wsN vN =>
                          simp only [] at heq
                          obtain ⟨hvN, ⟨tlN, hseenN⟩, hinvN, hpresN,
                            ⟨wtlN, hwrapsN, hwtlN⟩⟩ :=
                            objS ws _ _ _ _ hinv hbOK hobj
                          have hgaddr : heapGet wsN.heap addr = heapGet ws.heap addr :=
                            hpresN addr haddr (Or.inl hmem)
                          obtain ⟨⟨tlR, hseenR⟩, hinvR, hpresR,
                            ⟨wtlR, hwrapsR, hwtlR⟩⟩ :=
                            ih wsN ws2 v2 hinvN haddr (mem_of_ext hseenN hmem)
                              (by
                                intro k hk
                                rw [hgaddr]
                                exact hprops k (List.mem_cons_of_mem _ hk))
                              (List.Nodup.of_cons hnd) heq
                          refine ⟨⟨tlN ++ tlR, by rw [hseenR, hseenN, List.append_assoc]⟩,
                            hinvR, ?_, ⟨wtlN ++ wtlR,
                              by rw [hwrapsR, hwrapsN, List.append_assoc], ?_⟩⟩
                          · intro c hc hcaddr hd
                            have s1 : heapGet ws2.heap c = heapGet wsN.heap c := by
                              refine hpresR c hc hcaddr ?_
                              cases hd with
                              | inl hm => exact Or.inl (mem_of_ext hseenN hm)
                              | inr hm => exact Or.inr hm
                            have s2 : heapGet wsN.heap c = heapGet ws.heap c := by
                              refine hpresN c hc ?_
                              cases hd with
                              | inl hm => exact Or.inl hm
                              | inr hm => exact Or.inr (not_mem_of_ext hseenR hm)
                            rw [s1, s2]
                          · intro ev hev
                            rw [List.mem_append] at hev
                            cases hev with
                            | inl h => exact hwtlN ev h
                            | inr h => exact hwtlR ev h
              | true =>
                  rw [if_pos (by rw [hcb])] at heq
                  have hb : b < orig.length := by simpa [valueOK] using hbOK
                  have hlenle : addr < ws.heap.length :=
                    Nat.lt_of_lt_of_le haddr hinv.hlen
                  have hWaddr : heapGet (heapSet (allocWrapper ws.heap).1 addr
                      (propSet (heapGet (allocWrapper ws.heap).1 addr) key
                        (.ref (allocWrapper ws.heap).2))) addr
                      = propSet (heapGet ws.heap addr) key
                          (.ref (allocWrapper ws.heap).2) := by
                    rw [heapGet_set_self _ _ _ (by
                      simp [allocWrapper]
                      omega)]
                    rw [show (allocWrapper ws.heap).1 = ws.heap ++ _ from rfl]
                    rw [heapGet_append _ _ _ hlenle]
                  have hinvW : Inv orig
                      { heap := heapSet (allocWrapper ws.heap).1 addr
                          (propSet (heapGet (allocWrapper ws.heap).1 addr) key
                            (.ref (allocWrapper ws.heap).2)),
                        seen := ws.seen,
                        wraps := ws.wraps ++ [(name ++ "." ++ key, JSValue.ref b)] } := by
                    refine ⟨hinv.nodup, hinv.seenOK, ?_, ?_⟩
                    · simp only [heapSet, List.length_set]
                      calc orig.length ≤ ws.heap.length := hinv.hlen
                        _ ≤ (allocWrapper ws.heap).1.length := by
                            simp [allocWrapper]
                    · intro c hc hcns
                      have hcaddr : ¬c = addr := by
                        intro hce; subst hce; exact hcns hmem
                      rw [heapGet_set_ne _ _ _ _ hcaddr]
                      rw [show (allocWrapper ws.heap).1 = ws.heap ++ _ from rfl]
                      rw [heapGet_append _ _ _ (Nat.lt_of_lt_of_le hc hinv.hlen)]
                      exact hinv.heapPres c hc hcns
                  cases hobj : wrapObjF (n + 1)
                      { heap := heapSet (allocWrapper ws.heap).1 addr
                          (propSet (heapGet (allocWrapper ws.heap).1 addr) key
                            (.ref (allocWrapper ws.heap).2)),
                        seen := ws.seen,
                        wraps := ws.wraps ++ [(name ++ "." ++ key, JSValue.ref b)] }
                      (name ++ "." ++ key) (JSValue.ref b) with
                  | none => rw [hobj] at heq; simp at heq
                  | some r =>
                      rw [hobj] at heq
                      cases r with
                      | thrown msg => simp at heq
                      | ok wsN vN =>
                          simp only [] at heq
                          obtain ⟨hvN, ⟨tlN, hseenN⟩, hinvN, hpresN,
                            ⟨wtlN, hwrapsN, hwtlN⟩⟩ :=
                            objS _ _ _ _ _ hinvW hbOK hobj
                          have hgaddr : heapGet wsN.heap addr
                              = propSet (heapGet ws.heap addr) key
                                  (.ref (allocWrapper ws.heap).2) := by
                            rw [hpresN addr haddr (Or.inl hmem)]
                            exact hWaddr
                          obtain ⟨⟨tlR, hseenR⟩, hinvR, hpresR,
                            ⟨wtlR, hwrapsR, hwtlR⟩⟩ :=
                            ih wsN ws2 v2 hinvN haddr (mem_of_ext hseenN hmem)
                              (by
                                intro k hk
                                rw [hgaddr, propGet_propSet_ne _ _ _ _
                                  (by intro hke; subst hke; exact hkeyNotRest hk)]
                                exact hprops k (List.mem_cons_of_mem _ hk))
                              (List.Nodup.of_cons hnd) heq
                          refine ⟨⟨tlN ++ tlR, by rw [hseenR, hseenN]; simp⟩,
                            hinvR, ?_, ⟨(name ++ "." ++ key, JSValue.ref b) :: (wtlN ++ wtlR),
                              by rw [hwrapsR, hwrapsN]; simp, ?_⟩⟩
                          · intro c hc hcaddr hd
                            have s1 : heapGet ws2.heap c = heapGet wsN.heap c := by
                              refine hpresR c hc hcaddr ?_
                              cases hd with
                              | inl hm => exact Or.inl (mem_of_ext hseenN hm)
                              | inr hm => exact Or.inr hm
                            have s2 : heapGet wsN.heap c
                                = heapGet ws.heap c := by
                              have s2a : heapGet wsN.heap c
                                  = heapGet (heapSet (allocWrapper ws.heap).1 addr
                                      (propSet (heapGet (allocWrapper ws.heap).1 addr) key
                                        (.ref (allocWrapper ws.heap).2))) c := by
                                refine hpresN c hc ?_
                                cases hd with
                                | inl hm => exact Or.inl hm
                                | inr hm => exact Or.inr (not_mem_of_ext hseenR hm)
                              rw [s2a, heapGet_set_ne _ _ _ _ hcaddr]
                              rw [show (allocWrapper ws.heap).1 = ws.heap ++ _ from rfl]
                              rw [heapGet_append _ _ _ (Nat.lt_of_lt_of_le hc hinv.hlen)]
                            rw [s1, s2]
                          · intro ev hev
                            rw [List.mem_cons] at hev
                            cases hev with
                            | inl h =>
                                subst h
                                exact mem_heapPropValues orig addr _ haddr
                                  (propGet_mem_values _ _ _ hvalOrig)
                            | inr h =>
                                rw [List.mem_append] at h
                                cases h with
                                | inl h2 => exact hwtlN ev h2
                                | inr h2 => exact hwtlR ev h2

theorem heapGetWrite (ws : WalkState) (addr : Nat) (key : String)
    (hlenle : addr < ws.heap.length) :
    heapGet (heapSet (allocWrapper ws.heap).1 addr
        (propSet (heapGet (allocWrapper ws.heap).1 addr) key
          (.ref (allocWrapper ws.heap).2))) addr
      = propSet (heapGet ws.heap addr) key (.ref (allocWrapper ws.heap).2) := by
  rw [heapGet_set_self _ _ _ (by simp [allocWrapper]; omega)]
  rw [show (allocWrapper ws.heap).1 = ws.heap ++ _ from rfl]
  rw [heapGet_append _ _ _ hlenle]

theorem heapGetWrite_ne (ws : WalkState) (addr : Nat) (key : String)
    (c : Nat) (hc : c < ws.heap.length) (hca : ¬c = addr) :
    heapGet (heapSet (allocWrapper ws.heap).1 addr
        (propSet (heapGet (allocWrapper ws.heap).1 addr) key
          (.ref (allocWrapper ws.heap).2))) c
      = heapGet ws.heap c := by
  rw [heapGet_set_ne _ _ _ _ hca]
  rw [show (allocWrapper ws.heap).1 = ws.heap ++ _ from rfl]
  rw [heapGet_append _ _ _ hc]

theorem invWrite (orig : Heap) (ws : WalkState) (hinv : Inv orig ws)
    (addr : Nat) (key : String) (b : Nat) (fullName : String)
    (hmem : JSValue.ref addr ∈ ws.seen) :
    Inv orig
      { heap := heapSet (allocWrapper ws.heap).1 addr
          (propSet (heapGet (allocWrapper ws.heap).1 addr) key
            (.ref (allocWrapper ws.heap).2)),
        seen := ws.seen,
        wraps := ws.wraps ++ [(fullName, JSValue.ref b)] } := by
  refine ⟨hinv.nodup, hinv.seenOK, ?_, ?_⟩
  · simp only [heapSet, List.length_set]
    calc orig.length ≤ ws.heap.length := hinv.hlen
      _ ≤ (allocWrapper ws.heap).1.length := by simp [allocWrapper]
  · intro c hc hcns
    have hcaddr : ¬c = addr := by
      intro hce; subst hce; exact hcns hmem
    rw [heapGetWrite_ne ws addr key c (Nat.lt_of_lt_of_le hc hinv.hlen) hcaddr]
    exact hinv.heapPres c hc hcns

/-- Fuel sufficiency for one call: any fuel that exceeds the number of not yet
visited original objects lets `wrapObject` run to completion. -/
def ObjSufStmt (orig : Heap) (fuel : Nat) : Prop :=
  ∀ (ws : WalkState) (name : String) (v : JSValue), Inv orig ws →
    valueOK orig v = true →
    orig.length + 1 ≤ fuel + refCount ws.seen →
    (wrapObjF fuel ws name v).isSome = true

/-- Fuel sufficiency for the key loop. -/
def PropsSufStmt (orig : Heap) (fuel : Nat) : Prop :=
  ∀ (ws : WalkState) (name : String) (addr : Nat) (keys : List String),
    Inv orig ws → addr < orig.length → JSValue.ref addr ∈ ws.seen →
    (∀ k ∈ keys, propGet (heapGet ws.heap addr) k = propGet (heapGet orig addr) k) →
    keys.Nodup →
    orig.length + 1 ≤ fuel + refCount ws.seen →
    (wrapPropsF fuel ws name addr keys).isSome = true

theorem wrapObjF_ref_unfold (fuel : Nat) (ws : WalkState) (name : String)
    (a : Nat) (hseen : JSValue.ref a ∉ ws.seen) :
    wrapObjF (fuel + 1) ws name (JSValue.ref a) =
      match (if (heapGet ws.heap a).callable = true then
               wrapObjF fuel { ws with seen := ws.seen ++ [JSValue.ref a] }
                 (name ++ ".prototype") (heapGet ws.heap a).protoProp
             else some (.ok { ws with seen := ws.seen ++ [JSValue.ref a] } (.ref a))) with
      | none => none
      | some (.thrown msg) => some (.thrown msg)
      | some (.ok ws2 _) =>
          match wrapPropsF fuel ws2 name a (keysOf (heapGet ws2.heap a)) with
          | none => none
          | some (.thrown msg) => some (.thrown msg)
          | some (.ok ws3 _) => some (.ok ws3 (.ref a)) := by
  conv_lhs => rw [wrapObjF.eq_def]
  simp [hseen]

theorem wrapObjF_nullOrAbsent (fuel : Nat) (ws : WalkState) (name : String)
    (v : JSValue) (h : v = .vnull ∨ v = .undefinedV) :
    wrapObjF (fuel + 1) ws name v = some (.ok ws v) := by
  rw [wrapObjF.eq_def]
  cases h with
  | inl h => subst h; simp
  | inr h => subst h; simp

theorem wrapObjF_seen (fuel : Nat) (ws : WalkState) (name : String)
    (v : JSValue) (h : v ∈ ws.seen) :
    wrapObjF (fuel + 1) ws name v = some (.ok ws v) := by
  rw [wrapObjF.eq_def]
  by_cases hnull : v = .vnull ∨ v = .undefinedV
  · cases hnull with
    | inl h2 => subst h2; simp
    | inr h2 => subst h2; simp
  · simp [hnull, h]

theorem wrapObjF_prim (fuel : Nat) (ws : WalkState) (name : String)
    (tag : String) (hseen : JSValue.prim tag ∉ ws.seen) :
    wrapObjF (fuel + 1) ws name (.prim tag)
      = some (.thrown "keys called on non-object") := by
  rw [wrapObjF.eq_def]
  simp [hseen]

theorem walkSuf (orig : Heap) (hwf : heapWF orig) :
    ∀ fuel, ObjSufStmt orig fuel ∧ PropsSufStmt orig fuel := by
  intro fuel
  induction fuel with
  | zero =>
      constructor
      · intro ws name v hinv _ hbound
        have := refCount_le orig ws hinv
        omega
      · intro ws name addr keys hinv _ _ _ _ hbound
        have := refCount_le orig ws hinv
        omega
  | succ n ihn =>
      obtain ⟨ihOS, ihPS⟩ := ihn
      obtain ⟨effObjN, effPropsN⟩ := walkEffect orig hwf n
      obtain ⟨effObjS, effPropsS⟩ := walkEffect orig hwf (n + 1)
      have objSuf : ObjSufStmt orig (n + 1) := by
        intro ws name v hinv hvOK hbound
        by_cases hnull : v = .vnull ∨ v = .undefinedV
        · rw [wrapObjF_nullOrAbsent n ws name v hnull]; rfl
        · by_cases hseen : v ∈ ws.seen
          · rw [wrapObjF_seen n ws name v hseen]; rfl
          · cases v with
            | vnull => exact absurd (Or.inl rfl) hnull
            | undefinedV => exact absurd (Or.inr rfl) hnull
            | prim tag => rw [wrapObjF_prim n ws name tag hseen]; rfl
            | ref a =>
                have ha : a < orig.length := by simpa [valueOK] using hvOK
                have hinv1 : Inv orig { ws with seen := ws.seen ++ [JSValue.ref a] } :=
                  Inv.push orig ws hinv _ hvOK hseen
                have hga : heapGet ws.heap a = heapGet orig a :=
                  hinv.heapPres a ha hseen
                have hrc1 : refCount (ws.seen ++ [JSValue.ref a])
                    = refCount ws.seen + 1 := by
                  rw [refCount_append]; rfl
                rw [wrapObjF_ref_unfold n ws name a hseen]
                cases hcall : (heapGet ws.heap a).callable with
                | false =>
                    rw [if_neg Bool.false_ne_true]
                    have hks : (wrapPropsF n { ws with seen := ws.seen ++ [JSValue.ref a] }
                        name a (keysOf (heapGet ws.heap a))).isSome = true := by
                      refine ihPS _ name a _ hinv1 ha
                        (List.mem_append_right _ (List.mem_singleton_self _)) ?_ ?_ ?_
                      · intro k _
                        show propGet (heapGet ws.heap a) k = propGet (heapGet orig a) k
                        rw [hga]
                      · rw [hga]
                        exact hwf.2 _ (heapGet_mem orig a ha)
                      · show orig.length + 1 ≤ n + refCount (ws.seen ++ [JSValue.ref a])
                        rw [hrc1]
                        omega
                    show (match wrapPropsF n { ws with seen := ws.seen ++ [JSValue.ref a] }
                        name a (keysOf (heapGet ws.heap a)) with
                      | none => none
                      | some (WalkResult.thrown msg) => some (WalkResult.thrown msg)
                      | some (WalkResult.ok ws3 _) =>
                          some (WalkResult.ok ws3 (JSValue.ref a))).isSome = true
                    cases hkeys : wrapPropsF n { ws with seen := ws.seen ++ [JSValue.ref a] }
                        name a (keysOf (heapGet ws.heap a)) with
                    | none => rw [hkeys] at hks; simp at hks
                    | some r => cases r <;> rfl
                | true =>
                    rw [if_pos rfl]
                    have hprotoOK : valueOK orig (heapGet ws.heap a).protoProp = true := by
                      rw [hga]
                      exact (hwf.1 (heapGet orig a) (heapGet_mem orig a ha)).1
                    have hps : (wrapObjF n { ws with seen := ws.seen ++ [JSValue.ref a] }
                        (name ++ ".prototype") (heapGet ws.heap a).protoProp).isSome
                        = true := by
                      refine ihOS _ _ _ hinv1 hprotoOK ?_
                      show orig.length + 1 ≤ n + refCount (ws.seen ++ [JSValue.ref a])
                      rw [hrc1]
                      omega
                    cases hproto : wrapObjF n { ws with seen := ws.seen ++ [JSValue.ref a] }
                        (name ++ ".prototype") (heapGet ws.heap a).protoProp with
                    | none => rw [hproto] at hps; simp at hps
                    | some r =>
                        cases r with
                        | thrown msg => rfl
                        | ok wsB vB =>
                            show (match wrapPropsF n wsB name a
                                (keysOf (heapGet wsB.heap a)) with
                              | none => none
                              | some (WalkResult.thrown msg) => some (WalkResult.thrown msg)
                              | some (WalkResult.ok ws3 _) =>
                                  some (WalkResult.ok ws3 (JSValue.ref a))).isSome = true
                            obtain ⟨hvB, ⟨tlB, hseenB⟩, hinvB, hpresB, _⟩ :=
                              effObjN _ _ _ _ _ hinv1 hprotoOK hproto
                            have hseenB2 : wsB.seen = (ws.seen ++ [JSValue.ref a]) ++ tlB :=
                              hseenB
                            have haB : JSValue.ref a ∈ wsB.seen := by
                              rw [hseenB2]
                              exact List.mem_append_left _
                                (List.mem_append_right _ (List.mem_singleton_self _))
                            have hgB : heapGet wsB.heap a = heapGet orig a := by
                              rw [hpresB a ha (Or.inl (List.mem_append_right _
                                (List.mem_singleton_self _)))]
                              exact hga
                            have hks : (wrapPropsF n wsB name a
                                (keysOf (heapGet wsB.heap a))).isSome = true := by
                              refine ihPS wsB name a _ hinvB ha haB ?_ ?_ ?_
                              · intro k _
                                rw [hgB]
                              · rw [hgB]
                                exact hwf.2 _ (heapGet_mem orig a ha)
                              · have hmono : refCount (ws.seen ++ [JSValue.ref a])
                                    ≤ refCount wsB.seen := by
                                  rw [hseenB2]
                                  conv_rhs => rw [refCount_append]
                                  exact Nat.le_add_right _ _
                                rw [hrc1] at hmono
                                omega
                            cases hkeys : wrapPropsF n wsB name a
                                (keysOf (heapGet wsB.heap a)) with
                            | none => rw [hkeys] at hks; simp at hks
                            | some r2 => cases r2 <;> rfl
      refine ⟨objSuf, ?_⟩
      intro ws name addr keys
      induction keys generalizing ws with
      | nil =>
          intro hinv haddr hmem hprops hnd hbound
          rw [wrapPropsF]
          rfl
      | cons key rest ih =>
          intro hinv haddr hmem hprops hnd hbound
          rw [wrapPropsF]
          cases hval : propGet (heapGet ws.heap addr) key with
          | undefinedV =>
              simp only []
              exact ih ws hinv haddr hmem
                (fun k hk => hprops k (List.mem_cons_of_mem _ hk))
                (List.Nodup.of_cons hnd) hbound
          | vnull =>
              simp only []
              exact ih ws hinv haddr hmem
                (fun k hk => hprops k (List.mem_cons_of_mem _ hk))
                (List.Nodup.of_cons hnd) hbound
          | prim tag =>
              simp only []
              exact ih ws hinv haddr hmem
                (fun k hk => hprops k (List.mem_cons_of_mem _ hk))
                (List.Nodup.of_cons hnd) hbound
          | ref b =>
              simp only []
              have hvalOrig : propGet (heapGet orig addr) key = .ref b := by
                rw [← hprops key (List.mem_cons_self _ _)]
                exact hval
              have hbOK : valueOK orig (JSValue.ref b) = true := by
                have hmemv : JSValue.ref b ∈ (heapGet orig addr).props.map Prod.snd :=
                  propGet_mem_values _ _ _ hvalOrig
                rw [List.mem_map] at hmemv
                obtain ⟨p, hp, hpv⟩ := hmemv
                rw [← hpv]
                exact (hwf.1 (heapGet orig addr) (heapGet_mem orig addr haddr)).2 p hp
              have hkeyNotRest : key ∉ rest := (List.nodup_cons.mp hnd).1
              cases hcb : (heapGet ws.heap b).callable with
              | false =>
                  rw [if_neg Bool.false_ne_true]
                  have hos : (wrapObjF (n + 1) ws (name ++ "." ++ key)
                      (JSValue.ref b)).isSome = true :=
                    objSuf ws _ _ hinv hbOK hbound
                  cases hobj : wrapObjF (n + 1) ws (name ++ "." ++ key)
                      (JSValue.ref b) with
                  | none => rw [hobj] at hos; simp at hos
                  | some r =>
                      cases r with
                      | thrown msg => rfl
                      | ok wsN vN =>
                          show (wrapPropsF (n + 1) wsN name addr rest).isSome = true
                          obtain ⟨hvN, ⟨tlN, hseenN⟩, hinvN, hpresN, _⟩ :=
                            effObjS ws _ _ _ _ hinv hbOK hobj
                          have hgaddr : heapGet wsN.heap addr = heapGet ws.heap addr :=
                            hpresN addr haddr (Or.inl hmem)
                          refine ih wsN hinvN haddr (mem_of_ext hseenN hmem) ?_
                            (List.Nodup.of_cons hnd) ?_
                          · intro k hk
                            rw [hgaddr]
                            exact hprops k (List.mem_cons_of_mem _ hk)
                          · have : refCount ws.seen ≤ refCount wsN.seen := by
                              rw [hseenN, refCount_append]
                              omega
                            omega
              | true =>
                  rw [if_pos rfl]
                  have hinvW := invWrite orig ws hinv addr key b
                    (name ++ "." ++ key) hmem
                  have hos : (wrapObjF (n + 1)
                      { heap := heapSet (allocWrapper ws.heap).1 addr
                          (propSet (heapGet (allocWrapper ws.heap).1 addr) key
                            (.ref (allocWrapper ws.heap).2)),
                        seen := ws.seen,
                        wraps := ws.wraps ++ [(name ++ "." ++ key, JSValue.ref b)] }
                      (name ++ "." ++ key) (JSValue.ref b)).isSome = true :=
                    objSuf _ _ _ hinvW hbOK hbound
                  cases hobj : wrapObjF (n + 1)
                      { heap := heapSet (allocWrapper ws.heap).1 addr
                          (propSet (heapGet (allocWrapper ws.heap).1 addr) key
                            (.ref (allocWrapper ws.heap).2)),
                        seen := ws.seen,
                        wraps := ws.wraps ++ [(name ++ "." ++ key, JSValue.ref b)] }
                      (name ++ "." ++ key) (JSValue.ref b) with
                  | none => rw [hobj] at hos; simp at hos
                  | some r =>
                      cases r with
                      | thrown msg => rfl
                      | ok wsN vN =>
                          show (wrapPropsF (n + 1) wsN name addr rest).isSome = true
                          obtain ⟨hvN, ⟨tlN, hseenN⟩, hinvN, hpresN, _⟩ :=
                            effObjS _ _ _ _ _ hinvW hbOK hobj
                          have hseenN2 : wsN.seen = ws.seen ++ tlN := hseenN
                          have hgaddr : heapGet wsN.heap addr
                              = propSet (heapGet ws.heap addr) key
                                  (.ref (allocWrapper ws.heap).2) := by
                            rw [hpresN addr haddr (Or.inl hmem)]
                            exact heapGetWrite ws addr key
                              (Nat.lt_of_lt_of_le haddr hinv.hlen)
                          refine ih wsN hinvN haddr (mem_of_ext hseenN2 hmem) ?_
                            (List.Nodup.of_cons hnd) ?_
                          · intro k hk
                            rw [hgaddr, propGet_propSet_ne _ _ _ _
                              (by intro hke; subst hke; exact hkeyNotRest hk)]
                            exact hprops k (List.mem_cons_of_mem _ hk)
                          · have : refCount ws.seen ≤ refCount wsN.seen := by
                              rw [hseenN2, refCount_append]
                              omega
                            omega

/-- C7: `wrapObject` on `null` or on `undefined` (an absent root) is a silent
no-op: it raises nothing and returns its input unchanged, with the whole
traversal state untouched — for any state and any fuel left. -/
theorem wrapObject_null_undefined_noop (f : Nat) (ws : WalkState) (name : String) :
    wrapObjF (f + 1) ws name .vnull = some (.ok ws .vnull)
    ∧ wrapObjF (f + 1) ws name .undefinedV = some (.ok ws .undefinedV) :=
  ⟨wrapObjF_nullOrAbsent f ws name _ (Or.inl rfl),
   wrapObjF_nullOrAbsent f ws name _ (Or.inr rfl)⟩

/-- A diamond-shaped heap: address 2 is the root object with properties
`f ↦ function 0` and `o ↦ object 1`, and object 1 also holds the same
function 0 under key `g`; address 3 is function 0's prototype object. -/
def diamondHeap : Heap :=
  [⟨true, [], .ref 3⟩,
   ⟨false, [("g", .ref 0)], .undefinedV⟩,
   ⟨false, [("f", .ref 0), ("o", .ref 1)], .undefinedV⟩,
   ⟨false, [], .undefinedV⟩]

/-- Number of `wrapFunction` events whose target is a given identity, in the
result of a traversal. -/
def wrapTargets (r : Option WalkResult) (v : JSValue) : Nat :=
  match r with
  | some (.ok ws _) => (ws.wraps.filter (fun ev => ev.2 == v)).length
  | _ => 0

/-- The value returned by a traversal, when it completed without throwing. -/
def walkValue (r : Option WalkResult) : Option JSValue :=
  match r with
  | some (.ok _ v) => some v
  | _ => none

/-- The object at an address in the final heap of a completed traversal. -/
def walkHeapAt (r : Option WalkResult) (a : Nat) : HeapObj :=
  match r with
  | some (.ok ws _) => heapGet ws.heap a
  | _ => ⟨false, [], .undefinedV⟩

/-- C4 counterexample: on the diamond heap — function 0 reachable both as
`root.f` and as `root.o.g` — the traversal terminates but `wrapFunction` runs
twice on the same function identity (once per property slot), so "every object
identity is wrapped at most once per traversal" is false on the code. -/
theorem diamond_function_wrapped_twice :
    (wrapObjF 6 ⟨diamondHeap, [], []⟩ "root" (.ref 2)).isSome = true
    ∧ wrapTargets (wrapObjF 6 ⟨diamondHeap, [], []⟩ "root" (.ref 2)) (.ref 0) = 2
    ∧ ¬wrapTargets (wrapObjF 6 ⟨diamondHeap, [], []⟩ "root" (.ref 2)) (.ref 0) ≤ 1 := by
  refine ⟨?_, ?_, ?_⟩ <;>
    simp [wrapObjF, wrapPropsF, diamondHeap, heapGet, heapSet, propGet, propSet,
      keysOf, allocWrapper, wrapTargets, List.filter]

/-- C4 (amended): on every closed heap with duplicate-free keys, `wrapObject`
terminates — fuel `heap length + 1`, i.e. recursion depth bounded by the
number of objects, always suffices, cycles and diamonds included — and every
object identity is processed (entered and walked) at most once: an
already-visited identity returns immediately, so `seenObjects` stays
duplicate-free.  (A function identity reachable through several property
slots is still wrapped once per slot; see the counterexample.) -/
theorem wrapObject_terminates_processes_once (h : Heap) (name : String)
    (v : JSValue) (hwf : heapWF h) (hvOK : valueOK h v = true) :
    (wrapObjF (h.length + 1) ⟨h, [], []⟩ name v).isSome = true
    ∧ ∀ ws2 v2, wrapObjF (h.length + 1) ⟨h, [], []⟩ name v = some (.ok ws2 v2) →
        ws2.seen.Nodup := by
  have hinv0 : Inv h ⟨h, [], []⟩ :=
    ⟨List.nodup_nil, by intro w hw; simp at hw, Nat.le_refl _,
      fun a ha hna => rfl⟩
  constructor
  · have hrc : refCount ([] : List JSValue) = 0 := rfl
    refine (walkSuf h hwf (h.length + 1)).1 _ name v hinv0 hvOK ?_
    rw [show (WalkState.mk h [] []).seen = [] from rfl, hrc]
  · intro ws2 v2 heq
    exact ((walkEffect h hwf (h.length + 1)).1 _ name v ws2 v2 hinv0
      hvOK heq).2.2.1.nodup

/-- Witness for the termination theorem, at the diamond heap. -/
theorem wrapObject_terminates_processes_once_witness :
    heapWF diamondHeap
    ∧ valueOK diamondHeap (.ref 2) = true
    ∧ (wrapObjF (diamondHeap.length + 1) ⟨diamondHeap, [], []⟩ "root"
        (.ref 2)).isSome = true
    ∧ ∀ ws2 v2, wrapObjF (diamondHeap.length + 1) ⟨diamondHeap, [], []⟩ "root"
        (.ref 2) = some (.ok ws2 v2) → ws2.seen.Nodup := by
  have h := wrapObject_terminates_processes_once diamondHeap "root" (.ref 2)
    (by decide) (by decide)
  exact ⟨by decide, by decide, h.1, h.2⟩

/-- A callable root: address 0 is the function `Foo` with prototype object 1,
which carries an instance method `bar` (function 2, prototype 3). -/
def fooHeap : Heap :=
  [⟨true, [], .ref 1⟩,
   ⟨false, [("bar", .ref 2)], .undefinedV⟩,
   ⟨true, [], .ref 3⟩,
   ⟨false, [], .undefinedV⟩]

/-- C10 counterexample: `wrapObject` on the callable root `Foo` walks its
prototype and wraps the instance method `Foo.prototype.bar`, but the root
callable itself is never passed to `wrapFunction`: the returned value is the
original function identity, its heap cell is unchanged, and no wrap event
targets it — invoking the root after `wrapObject` is not instrumented. -/
theorem root_callable_not_wrapped :
    walkValue (wrapObjF 6 ⟨fooHeap, [], []⟩ "Foo" (.ref 0)) = some (.ref 0)
    ∧ walkHeapAt (wrapObjF 6 ⟨fooHeap, [], []⟩ "Foo" (.ref 0)) 0 = heapGet fooHeap 0
    ∧ wrapTargets (wrapObjF 6 ⟨fooHeap, [], []⟩ "Foo" (.ref 0)) (.ref 0) = 0
    ∧ wrapTargets (wrapObjF 6 ⟨fooHeap, [], []⟩ "Foo" (.ref 0)) (.ref 2) = 1 := by
  refine ⟨?_, ?_, ?_, ?_⟩ <;>
    (simp [wrapObjF, wrapPropsF, fooHeap, heapGet, heapSet, propGet, propSet,
      keysOf, allocWrapper, wrapTargets, walkValue, walkHeapAt, List.filter] <;>
      decide)

/-- C10 (amended): `wrapObject` on a callable root recurses into the
prototype and wraps reachable property slots, but never wraps the root
itself: a completed traversal returns the root identity unchanged, and — as
long as the root does not also occur as a property value of some object in
the graph — no `wrapFunction` event ever targets it. -/
theorem wrapObject_root_identity_unwrapped (h : Heap) (name : String) (r : Nat)
    (ws2 : WalkState) (v2 : JSValue) (fuel : Nat) (hwf : heapWF h)
    (hr : r < h.length) (hnp : JSValue.ref r ∉ heapPropValues h)
    (heq : wrapObjF fuel ⟨h, [], []⟩ name (.ref r) = some (.ok ws2 v2)) :
    v2 = .ref r ∧ ∀ ev ∈ ws2.wraps, ¬ev.2 = JSValue.ref r := by
  have hinv0 : Inv h ⟨h, [], []⟩ :=
    ⟨List.nodup_nil, by intro w hw; simp at hw, Nat.le_refl _,
      fun a ha hna => rfl⟩
  obtain ⟨hv, _, _, _, ⟨wtl, hw, hwt⟩⟩ :=
    (walkEffect h hwf fuel).1 _ name _ ws2 v2 hinv0 (by simp [valueOK, hr]) heq
  refine ⟨hv, ?_⟩
  intro ev hev heq2
  have hev2 : ev ∈ wtl := by
    have hw2 : ws2.wraps = wtl := by
      rw [hw]
      rfl
    rw [← hw2]
    exact hev
  exact hnp (heq2 ▸ hwt ev hev2)

/-- Witness for the root-identity theorem, at the `Foo` heap. -/
theorem wrapObject_root_identity_unwrapped_witness :
    (JSValue.ref 0 ∉ heapPropValues fooHeap)
    ∧ ((JSValue.ref 0 : JSValue) = .ref 0
      ∧ ∀ ev ∈ ({ heap := [⟨true, [], .ref 1⟩,
                      ⟨false, [("bar", .ref 5)], .undefinedV⟩,
                      ⟨true, [], .ref 3⟩,
                      ⟨false, [], .undefinedV⟩,
                      ⟨false, [], .undefinedV⟩,
                      ⟨true, [], .ref 4⟩],
                  seen := [JSValue.ref 0, JSValue.ref 1, JSValue.ref 2,
                      JSValue.ref 3],
                  wraps := [("Foo.prototype.bar", JSValue.ref 2)] }
            : WalkState).wraps,
          ¬ev.2 = JSValue.ref 0) :=
  ⟨by decide,
    wrapObject_root_identity_unwrapped fooHeap "Foo" 0 _ (.ref 0) 6
      (by decide) (by decide) (by decide)
      (by simp [wrapObjF, wrapPropsF, fooHeap, heapGet, heapSet, propGet,
        propSet, keysOf, allocWrapper, List.filter])⟩

/-- The function `testedFunction` with an own property
`nonFunctionProperty`, as in the repository's property-transparency test. -/
def testedFunctionHeap : Heap :=
  [⟨true, [("nonFunctionProperty", .prim "object")], .ref 1⟩,
   ⟨false, [], .undefinedV⟩]

/-- C6: the wrapper `wrapFunction` returns is a fresh closure with no own
properties — no revision of the source copies or delegates the wrapped
function's own properties — so a property of the original is not reachable on
the wrapped callable: `wrappedFunction.nonFunctionProperty` is undefined while
`testedFunction.nonFunctionProperty` holds its value, contradicting the
repository's own test ("Function wrappers expose properties of the wrapped
function"). -/
theorem wrapper_lacks_function_properties :
    propGet (heapGet testedFunctionHeap 0) "nonFunctionProperty" = .prim "object"
    ∧ propGet (heapGet (allocWrapper testedFunctionHeap).1
        (allocWrapper testedFunctionHeap).2) "nonFunctionProperty" = .undefinedV
    ∧ (heapGet (allocWrapper testedFunctionHeap).1
        (allocWrapper testedFunctionHeap).2).props = [] := by
  refine ⟨?_, ?_, ?_⟩ <;> decide

/-!
Interceptor argument validation and construct-mode value semantics.

`wrapFunction` begins with its only validation:
`if (typeof name !== 'string') throw TypeError('Expected string as first
argument, but received a ' + typeof name);` — nothing checks that `name` is
non-empty, and nothing checks that `func` is callable.
-/

inductive JSArg where
  | str (s : String)
  | func
  | num
  | boolean
  | undefinedArg
  | objArg
deriving Repr, DecidableEq

def typeofArg : JSArg → String
  | .str _ => "string"
  | .func => "function"
  | .num => "number"
  | .boolean => "boolean"
  | .undefinedArg => "undefined"
  | .objArg => "object"

/-- The validation prologue of `wrapFunction(name, func)`: the error raised
synchronously, if any.  Faithful to the source: only `typeof name` is
inspected; the second argument is never examined. -/
def wrapFunctionValidation (name func : JSArg) : Option String :=
  if typeofArg name ≠ "string" then
    some ("Expected string as first argument, but received a " ++ typeofArg name)
  else
    none

/-- C8: `wrapFunction`'s fail-fast validation rejects only a non-string
`name`.  A non-callable target is accepted without any error — contradicting
the claim and the repository's own test ("If the second parameter to
`wrapFunction` is not a function, an error is thrown") — and an empty-string
name is accepted as well, contradicting the claim's non-empty requirement.
Only the name-type check exists. -/
theorem validation_only_checks_name_type :
    wrapFunctionValidation (.str "a string") .undefinedArg = none
    ∧ wrapFunctionValidation (.str "") .func = none
    ∧ wrapFunctionValidation .func .func
      = some "Expected string as first argument, but received a function"
    ∧ wrapFunctionValidation .num .func
      = some "Expected string as first argument, but received a number" := by
  refine ⟨rfl, rfl, rfl, rfl⟩

/-!
Construct-mode value semantics of the wrapper (timing is covered by the
Recorder model above; here we model what value the caller of `new
wrappedFunction(...)` receives).  Objects live in a heap of prototype links.
-/

/-- Runtime value for the construction model. -/
inductive CVal where
  | obj (a : Nat)
  | prim (tag : String)
  | cnull
  | undefinedC
deriving Repr, DecidableEq

/-- An object's internal prototype link. -/
structure CObj where
  proto : Option Nat
deriving Repr, DecidableEq

abbrev CHeap := List CObj

def heapGetC (h : CHeap) (a : Nat) : CObj :=
  (h[a]?).getD ⟨none⟩

/-- `typeof` for the construction model: note `typeof null === 'object'`. -/
def typeofC : CVal → String
  | .obj _ => "object"
  | .prim t => t
  | .cnull => "object"
  | .undefinedC => "undefined"

/-- `createObject(base)`: `function Constructor() {};
Constructor.prototype = base; return new Constructor();` — a fresh object
whose prototype link is `base`. -/
def createObject (h : CHeap) (base : Option Nat) : CHeap × Nat :=
  (h ++ [⟨base⟩], h.length)

/-- Prototype-chain membership, fuelled by the heap size. -/
def chainMem (h : CHeap) : Nat → Option Nat → Nat → Bool
  | 0, _, _ => false
  | _ + 1, none, _ => false
  | fuel + 1, some p, target =>
      p == target || chainMem h fuel ((heapGetC h p).proto) target

/-- `v instanceof F` where `F.prototype` lives at `protoAddr`. -/
def instanceOfC (h : CHeap) (v : CVal) (protoAddr : Nat) : Bool :=
  match v with
  | .obj a => chainMem h (h.length + 1) (heapGetC h a).proto protoAddr
  | _ => false

/-- The body of the wrapper returned by `wrapFunction`, value behaviour only:
`if (this instanceof wrapper) { constructed = createObject(func.prototype);
returnValue = func.apply(constructed, arguments); if (typeof returnValue !==
'object') returnValue = constructed; } else { returnValue =
func.apply(this, arguments); }` — `funcBeh` is the underlying callable's
behaviour `(heap, this, arguments) ↦ (heap, returnValue)`, `funcProto` is
`func.prototype`, `wrapperProto` the address of the wrapper's own
`prototype` object. -/
def wrapperInvoke (h : CHeap) (funcProto : Option Nat) (wrapperProto : Nat)
    (funcBeh : CHeap → CVal → List CVal → CHeap × CVal)
    (thisV : CVal) (args : List CVal) : CHeap × CVal :=
  if instanceOfC h thisV wrapperProto then
    match createObject h funcProto with
    | (h1, constructed) =>
        match funcBeh h1 (.obj constructed) args with
        | (h2, rv) =>
            if typeofC rv ≠ "object" then (h2, .obj constructed) else (h2, rv)
  else
    funcBeh h thisV args

/-- `new wrappedFunction(args)`: the host creates
`this = createObject(wrapper.prototype)`, runs the wrapper on it, and hands
the caller the wrapper's return value when it is an object, otherwise the
fresh `this`. -/
def newInvoke (h : CHeap) (funcProto : Option Nat) (wrapperProto : Nat)
    (funcBeh : CHeap → CVal → List CVal → CHeap × CVal)
    (args : List CVal) : CHeap × CVal :=
  match createObject h (some wrapperProto) with
  | (h1, thisObj) =>
      match wrapperInvoke h1 funcProto wrapperProto funcBeh (.obj thisObj) args with
      | (h2, rv) =>
          match rv with
          | .obj _ => (h2, rv)
          | _ => (h2, .obj thisObj)

/-- C5, evaluated at the failing input of the repository's own test suite:
constructing a wrapped empty `Constructor` (heap: `Constructor.prototype` at
address 0, `wrapper.prototype` at address 1).  The caller receives the
instance built by `createObject(func.prototype)` — arguments reach the
callable unchanged, a non-object return is discarded in favour of the
constructed instance, an object return is honoured — and that instance is
recognized as an instance of the original `Constructor` but NOT of the
wrapper (its chain holds `Constructor.prototype`, never
`wrapper.prototype`), contradicting the test "Return value of functions
invoked as constructor, returning non-objects is an instance of the wrapper
function". -/
theorem construct_mode_not_instance_of_wrapper :
    (newInvoke [⟨none⟩, ⟨none⟩] (some 0) 1 (fun h _ _ => (h, .undefinedC)) []).2
      = .obj 3
    ∧ heapGetC (newInvoke [⟨none⟩, ⟨none⟩] (some 0) 1
        (fun h _ _ => (h, .undefinedC)) []).1 3 = ⟨some 0⟩
    ∧ instanceOfC (newInvoke [⟨none⟩, ⟨none⟩] (some 0) 1
        (fun h _ _ => (h, .undefinedC)) []).1
        (newInvoke [⟨none⟩, ⟨none⟩] (some 0) 1
          (fun h _ _ => (h, .undefinedC)) []).2 0 = true
    ∧ instanceOfC (newInvoke [⟨none⟩, ⟨none⟩] (some 0) 1
        (fun h _ _ => (h, .undefinedC)) []).1
        (newInvoke [⟨none⟩, ⟨none⟩] (some 0) 1
          (fun h _ _ => (h, .undefinedC)) []).2 1 = false
    ∧ (newInvoke [⟨none⟩, ⟨none⟩] (some 0) 1 (fun h _ _ => (h, .obj 0)) []).2
      = .obj 0
    ∧ (newInvoke [⟨none⟩, ⟨none⟩] (some 0) 1
        (fun h _ _ => (h, .prim "string")) []).2 = .obj 3
    ∧ (newInvoke [⟨none⟩, ⟨none⟩] (some 0) 1
        (fun h _ args => (h, if args = [CVal.prim "boolean"] then .obj 0
          else .undefinedC)) [CVal.prim "boolean"]).2 = .obj 0 := by
  refine ⟨?_, ?_, ?_, ?_, ?_, ?_, ?_⟩ <;> decide

end Prfl
